import Mathlib

/-!
Verification of the toroidal maze pathfinder (src/main.rs).

The program loads a character grid, finds the entry marker 'i' and the exit
marker 'O', runs a breadth-first search under toroidal 4-adjacency (walls '#'
impassable), overlays the found path with '.', and prints the grid.

Embedding conventions:
  * `Vec<Vec<char>>` is a `List (List Char)`; in-bounds indexing `grid[y][x]`
    becomes `getD` with a default that is never reached under the in-bounds
    hypotheses carried by every theorem (Rust would panic out of bounds).
  * The `visited` matrix and the `parent` matrix of `bfs` are total functions
    `Point → Bool` and `Point → Option Point`; Rust's in-place element
    assignment becomes a pointwise functional update.
  * Rust's `%` on `isize` is truncated remainder, `Int.tmod`.  `isize % 0`
    panics, so `normalize` returns an `Option`, `none` being the panic.
  * The unbounded `while` loops of `bfs` (frontier loop and parent-walk
    reconstruction) are modelled with explicit fuel; running out of fuel
    yields the `none` of an outer `Option`, and the termination theorem
    shows the fuel `width * height` given by the complexity bound suffices.
-/

namespace Maze

abbrev Point := Nat × Nat

/-- The `Map` struct: row-major grid of cells with its dimensions. -/
structure Map where
  grid : List (List Char)
  width : Nat
  height : Nat
deriving DecidableEq

/-- Well-formed map: the grid really is `height` rows of `width` cells,
as the data model prescribes and as `from_file` guarantees. -/
def Map.WF (m : Map) : Prop :=
  m.grid.length = m.height ∧ ∀ row ∈ m.grid, row.length = m.width

instance (m : Map) : Decidable m.WF := by
  unfold Map.WF; infer_instance

/-- Cell read `self.grid[y][x]`. -/
def Map.get (m : Map) (x y : Nat) : Char :=
  (m.grid.getD y []).getD x ' '

/-- Cell write `self.grid[y][x] = value`. -/
def Map.set (m : Map) (x y : Nat) (value : Char) : Map :=
  { m with grid := m.grid.set y ((m.grid.getD y []).set x value) }

/-- Rust `str::lines`: split at newline characters, drop an optional final
empty segment produced by a trailing newline. -/
def splitNL : List Char → List (List Char)
  | [] => [[]]
  | c :: cs =>
    if c = '\n' then [] :: splitNL cs
    else
      match splitNL cs with
      | [] => [[c]]
      | l :: ls => (c :: l) :: ls

/-- Rust `str::lines` strips one trailing carriage return from a line that
was terminated by a newline (a `\r\n` line ending). -/
def dropCR (l : List Char) : List Char :=
  if l.getLast? = some '\r' then l.dropLast else l

/-- The line list `content.lines().collect()`: split at `\n`; every segment
before the last was newline-terminated and sheds one trailing `\r`; the
last segment was not terminated, so it keeps any trailing `\r`, and it is
dropped entirely when empty (the final line ending is optional). -/
def rustLines (content : String) : List (List Char) :=
  let parts := splitNL content.data
  match parts.getLast? with
  | none => []
  | some last => parts.dropLast.map dropCR ++ (if last = [] then [] else [last])

/-- Rust `str::len`: the UTF-8 byte length of a line. -/
def byteLen : List Char → Nat
  | [] => 0
  | c :: cs => c.utf8Size + byteLen cs

/-- Inner copy loop of `from_file`:
`for (x, ch) in line.chars().enumerate() { grid[y][x] = ch }`. -/
def writeChars (row : List Char) (x : Nat) : List Char → List Char
  | [] => row
  | c :: cs => writeChars (row.set x c) (x + 1) cs

/-- One row of the allocated field after its line has been copied in. -/
def fillRow (width : Nat) (line : List Char) : List Char :=
  writeChars (List.replicate width ' ') 0 line

/-- `Map::from_file` after the file has been read into `content`:
split into lines, reject empty input, size the field by the line count and
the byte length of the longest line (Rust `l.len()` counts UTF-8 bytes,
while the copy loop enumerates characters), initialise with spaces and copy
each line left-aligned. -/
def Map.construct (content : String) : Except String Map :=
  let lines := rustLines content
  if lines = [] then Except.error "File is empty"
  else
    let height := lines.length
    let width := (lines.map byteLen).foldl Nat.max 0
    Except.ok { grid := lines.map (fillRow width), width := width, height := height }

/-- Inner loop of `find`: `for x in 0..width`, `fuel` many indices starting
at `x`. -/
def findRowAux (m : Map) (target : Char) (y : Nat) : Nat → Nat → Option Point
  | _, 0 => none
  | x, fuel + 1 =>
    if m.get x y = target then some (x, y) else findRowAux m target y (x + 1) fuel

/-- Outer loop of `find`: `for y in 0..height`. -/
def findColAux (m : Map) (target : Char) : Nat → Nat → Option Point
  | _, 0 => none
  | y, fuel + 1 =>
    match findRowAux m target y 0 m.width with
    | some p => some p
    | none => findColAux m target (y + 1) fuel

/-- `find`: first cell equal to `target` in row-major order. -/
def Map.find (m : Map) (target : Char) : Option Point :=
  findColAux m target 0 m.height

/-- The value `((v % n) + n) % n` of `normalize` for one axis, with Rust's
truncated `%` on `isize` rendered as `Int.tmod`; only meaningful for `n > 0`
(`normalize` panics otherwise). -/
def normCoord (v : Int) (n : Nat) : Nat :=
  (((v.tmod n) + n).tmod n).toNat

/-- `normalize(x, y)`: toroidal wrap of a signed coordinate pair.  Rust `%`
by a zero modulus panics, which is the `none` branch. -/
def Map.normalize (m : Map) (x y : Int) : Option Point :=
  if m.width = 0 ∨ m.height = 0 then none
  else some (normCoord x m.width, normCoord y m.height)

/-- The fixed neighbour offsets of `bfs`: down, right, up, left. -/
def directions : List (Int × Int) := [(0, 1), (1, 0), (0, -1), (-1, 0)]

/-- The normalized neighbour `self.normalize(x + dx, y + dy)` used inside
`bfs`, where both dimensions are positive. -/
def normP (m : Map) (x y : Int) : Point :=
  (normCoord x m.width, normCoord y m.height)

/-- Mark one point visited: `visited[p.1][p.0] = true`. -/
def setV (vis : Point → Bool) (p : Point) : Point → Bool :=
  fun q => if q = p then true else vis q

/-- Record one parent: `parent[c.1][c.0] = Some(u)`. -/
def setP (par : Point → Option Point) (c u : Point) : Point → Option Point :=
  fun q => if q = c then some u else par q

/-- Body of the neighbour loop of `bfs` for one direction: normalize the
offset, and if the cell is not a wall and unvisited, mark it, record its
parent and push it on the back of the queue. -/
def expand (m : Map) (u : Point) (st : (Point → Bool) × (Point → Option Point) × List Point)
    (d : Int × Int) : (Point → Bool) × (Point → Option Point) × List Point :=
  let nb := normP m ((u.1 : Int) + d.1) ((u.2 : Int) + d.2)
  if m.get nb.1 nb.2 ≠ '#' ∧ st.1 nb = false then
    (setV st.1 nb, setP st.2.1 nb u, st.2.2 ++ [nb])
  else st

/-- Path reconstruction of `bfs`: walk `parent` links from `end` back to
`start`, pushing each cell, then reverse.  `none` models the panic of
`unwrap` on a missing parent or a non-terminating walk (never reached under
the invariants). -/
def reconstruct (par : Point → Option Point) (start : Point) :
    Nat → Point → List Point → Option (List Point)
  | 0, cur, acc => if cur = start then some acc.reverse else none
  | fuel + 1, cur, acc =>
    if cur = start then some acc.reverse
    else
      match par cur with
      | none => none
      | some p => reconstruct par start fuel p (acc ++ [cur])

/-- The frontier loop of `bfs`.  The result is `some (some path)` when `end`
is dequeued, `some none` when the frontier empties, and `none` when the fuel
runs out (shown impossible for fuel `width * height`). -/
def bfsAux (m : Map) (start endp : Point) :
    Nat → List Point → (Point → Bool) → (Point → Option Point) →
    Option (Option (List Point))
  | _, [], _, _ => some none
  | fuel, u :: rest, vis, par =>
    if u = endp then (reconstruct par start (m.width * m.height) endp []).map some
    else
      match fuel with
      | 0 => none
      | fuel + 1 =>
        let st := directions.foldl (expand m u) (vis, par, rest)
        bfsAux m start endp fuel st.2.2 st.1 st.2.1

/-- `bfs(start, end)`: visited and parent fields all cleared, start marked
visited and enqueued, then the frontier loop. -/
def Map.bfs (m : Map) (start endp : Point) : Option (List Point) :=
  (bfsAux m start endp (m.width * m.height)
    [start] (setV (fun _ => false) start) (fun _ => none)).join

/-- An entry of `mark_path`: overwrite with '.' unless the cell holds an
endpoint marker. -/
def markCell (m : Map) (p : Point) : Map :=
  if m.get p.1 p.2 ≠ 'i' ∧ m.get p.1 p.2 ≠ 'O' then m.set p.1 p.2 '.' else m

/-- `mark_path(path)`: overlay every path cell in order. -/
def Map.mark_path (m : Map) (path : List Point) : Map :=
  path.foldl markCell m

/-- `to_string`: rows joined by newlines, padding spaces kept. -/
def Map.to_string (m : Map) : String :=
  String.intercalate "\n" (m.grid.map List.asString)

/-- The driver (`main`) after a successful load: locate the markers, search,
overlay on success, otherwise leave the grid alone. -/
def drive (m : Map) : Map :=
  match m.find 'i', m.find 'O' with
  | some s, some e =>
    match m.bfs s e with
    | some path => m.mark_path path
    | none => m
  | _, _ => m

/-- What `main` prints on stdout after a successful load, and the process
exit status (the final `println!` then falling off `main` yields 0). -/
def driveOutput (m : Map) : String × Nat :=
  ((drive m).to_string, 0)

/-! Sanity fixtures: the maps of the source's test module. -/

/-- The 7 x 4 map of `create_test_map`. -/
def testMap : Map :=
  { grid := [
      ['#', '#', ' ', ' ', ' ', ' ', '#'],
      ['#', ' ', ' ', '#', 'i', ' ', '#'],
      ['#', ' ', ' ', 'O', '#', '#', ' '],
      [' ', ' ', ' ', '#', ' ', ' ', ' ']],
    width := 7, height := 4 }

/-- The walled 7 x 7 map of `test_no_path`. -/
def noPathMap : Map :=
  { grid := [
      ['#', '#', '#', '#', '#', '#', '#'],
      ['#', 'i', ' ', ' ', ' ', ' ', '#'],
      ['#', ' ', '#', '#', '#', '#', ' ', '#'],
      ['#', ' ', '#', ' ', ' ', '#', ' ', '#'],
      ['#', ' ', '#', '#', '#', '#', ' ', '#'],
      ['#', ' ', ' ', ' ', ' ', 'O', '#'],
      ['#', '#', '#', '#', '#', '#', '#']],
    width := 7, height := 7 }

/-- The 7 x 3 map of `test_toroidal_path`. -/
def wrapMap : Map :=
  { grid := [
      ['#', '#', ' ', ' ', ' ', '#', '#'],
      ['i', ' ', ' ', ' ', ' ', ' ', 'O'],
      ['#', '#', ' ', ' ', ' ', '#', '#']],
    width := 7, height := 3 }

example : testMap.find 'i' = some (4, 1) := by decide
example : testMap.find 'O' = some (3, 2) := by decide
example : testMap.normalize 7 0 = some (0, 0) := by decide
example : testMap.normalize (-1) 0 = some (6, 0) := by decide
example : (testMap.bfs (4, 1) (3, 2)).isSome = true := by decide
-- Note: the source's `test_no_path` asserts `path.is_none()` on this map, but
-- its over-long middle rows leave the corridor at column 1 open, so a path
-- from (1,1) to (5,5) exists and the search finds it; that test is
-- inconsistent with its own fixture.  The embedding reproduces the code.
example : (noPathMap.bfs (1, 1) (5, 5)).isSome = true := by decide
example : (wrapMap.bfs (0, 1) (6, 1)).isSome = true := by decide

/-- The path found on the test map. -/
def testPath : List Point := (testMap.bfs (4, 1) (3, 2)).getD []

/-! Specification-side notions used to state the claims. -/

/-- In-bounds coordinate. -/
def InB (m : Map) (p : Point) : Prop :=
  p.1 < m.width ∧ p.2 < m.height

/-- Toroidal 4-adjacency as computed by the code: `c` is one of the four
normalized offsets of `p`. -/
def Adj (m : Map) (p c : Point) : Prop :=
  ∃ d ∈ directions, c = normP m ((p.1 : Int) + d.1) ((p.2 : Int) + d.2)

/-- One search step of `bfs`: an adjacent cell that is not a wall (the code
tests only the target cell). -/
def Step (m : Map) (p c : Point) : Prop :=
  Adj m p c ∧ m.get c.1 c.2 ≠ '#'

/-- `c` can be reached from `s` in exactly `n` search steps. -/
def ReachN (m : Map) (s : Point) : Nat → Point → Prop
  | 0, c => c = s
  | n + 1, c => ∃ p, ReachN m s n p ∧ Step m p c

/-- `c` is reachable from `s` by search steps. -/
def Reach (m : Map) (s c : Point) : Prop :=
  ∃ n, ReachN m s n c

/-- `n` is the exact search distance from `s` to `c`. -/
def IsDist (m : Map) (s c : Point) (n : Nat) : Prop :=
  ReachN m s n c ∧ ∀ k < n, ¬ ReachN m s k c

/-- Modelled from the spec: an edge of the graph named by the shortest-path
property, whose vertices are the non-wall cells and whose edges are toroidal
4-adjacency; both endpoints of an edge must be non-wall.  This is the
independent, spec-worded notion that claim C1 compares `bfs` against. -/
def SpecStep (m : Map) (p c : Point) : Prop :=
  m.get p.1 p.2 ≠ '#' ∧ m.get c.1 c.2 ≠ '#' ∧
    ∃ d ∈ directions, c = normP m ((p.1 : Int) + d.1) ((p.2 : Int) + d.2)

/-- Modelled from the spec: a walk of length `n` from `s` to `c` in the
spec's graph of non-wall cells. -/
def SpecReachN (m : Map) (s : Point) : Nat → Point → Prop
  | 0, c => c = s
  | n + 1, c => ∃ p, SpecReachN m s n p ∧ SpecStep m p c

/-- Lists that arise from walking parent links back from `c` and reversing:
a step chain from `s` that ends at `c`, with `c` included and `s` excluded. -/
inductive ChainL (m : Map) (s : Point) : List Point → Point → Prop
  | nil : ChainL m s [] s
  | snoc {l p c} : ChainL m s l p → Step m p c → ChainL m s (l ++ [c]) c

/-- Consecutive members of the list are toroidally adjacent, the first one
to the given origin. -/
def adjSeq (m : Map) : Point → List Point → Prop
  | _, [] => True
  | p, c :: l => Adj m p c ∧ adjSeq m c l

/-- Number of in-bounds cells not yet marked visited; the termination
measure of the frontier loop. -/
def unvisCount (m : Map) (vis : Point → Bool) : Nat :=
  ((Finset.range m.width ×ˢ Finset.range m.height).filter fun p => vis p = false).card

example : (testMap.mark_path testPath).get 4 1 = 'i' := by decide
example : (testMap.mark_path testPath).get 3 2 = 'O' := by decide
example : (testMap.mark_path testPath).get 4 0 = '.' := by decide

-- The documented behaviour of `str::lines`: `\r\n` endings are stripped,
-- the final line ending is optional, and a last line without one keeps its
-- trailing carriage return.
example : rustLines "foo\r\nbar\n\nbaz\r" =
    [['f', 'o', 'o'], ['b', 'a', 'r'], [], ['b', 'a', 'z', '\r']] := by decide

-- `l.len()` counts UTF-8 bytes: a one-character, two-byte line makes the
-- grid two cells wide, the second cell being padding space.
example : Map.construct "é" = Except.ok { grid := [['é', ' ']], width := 2, height := 1 } :=
  rfl

/-! General list access lemmas. -/

theorem getD_of_le {α : Type} : ∀ (l : List α) (i : Nat) (d : α), l.length ≤ i → l.getD i d = d
  | [], _, _, _ => rfl
  | _ :: l, i + 1, d, h => getD_of_le l i d (Nat.le_of_succ_le_succ h)

theorem getD_set_ne {α : Type} :
    ∀ (l : List α) (i j : Nat) (v d : α), i ≠ j → (l.set i v).getD j d = l.getD j d
  | [], _, _, _, _, _ => rfl
  | _ :: _, 0, 0, _, _, h => absurd rfl h
  | _ :: _, 0, _ + 1, _, _, _ => rfl
  | _ :: _, _ + 1, 0, _, _, _ => rfl
  | _ :: l, i + 1, j + 1, v, d, h =>
    getD_set_ne l i j v d (fun hij => h (congrArg Nat.succ hij))

theorem getD_set_self {α : Type} :
    ∀ (l : List α) (i : Nat) (v d : α), i < l.length → (l.set i v).getD i d = v
  | _ :: _, 0, _, _, _ => rfl
  | _ :: l, i + 1, v, d, h => getD_set_self l i v d (Nat.lt_of_succ_lt_succ h)

theorem getD_mem {α : Type} :
    ∀ (l : List α) (i : Nat) (d : α), i < l.length → l.getD i d ∈ l
  | a :: _, 0, _, _ => List.mem_cons_self a _
  | _ :: l, i + 1, d, h => List.mem_cons_of_mem _ (getD_mem l i d (Nat.lt_of_succ_lt_succ h))

theorem getD_replicate {α : Type} :
    ∀ (n i : Nat) (c d : α), i < n → (List.replicate n c).getD i d = c
  | _ + 1, 0, _, _, _ => rfl
  | n + 1, i + 1, c, d, h => getD_replicate n i c d (Nat.lt_of_succ_lt_succ h)

theorem getD_map {α β : Type} (f : α → β) :
    ∀ (l : List α) (i : Nat) (d : β) (d' : α), i < l.length →
      (l.map f).getD i d = f (l.getD i d')
  | _ :: _, 0, _, _, _ => rfl
  | _ :: l, i + 1, d, d', h => getD_map f l i d d' (Nat.lt_of_succ_lt_succ h)

theorem foldl_max_init_le : ∀ (l : List Nat) (a : Nat), a ≤ l.foldl Nat.max a
  | [], _ => Nat.le_refl _
  | b :: l, a => Nat.le_trans (Nat.le_max_left a b) (foldl_max_init_le l (Nat.max a b))

theorem le_foldl_max : ∀ (l : List Nat) (a x : Nat), x ∈ l → x ≤ l.foldl Nat.max a
  | b :: l, a, x, h => by
    rcases List.mem_cons.mp h with rfl | h
    · exact Nat.le_trans (Nat.le_max_right a x) (foldl_max_init_le l (Nat.max a x))
    · exact le_foldl_max l (Nat.max a b) x h

theorem foldl_max_cases : ∀ (l : List Nat) (a : Nat),
    l.foldl Nat.max a = a ∨ l.foldl Nat.max a ∈ l
  | [], a => Or.inl rfl
  | b :: l, a => by
    rcases foldl_max_cases l (Nat.max a b) with h | h
    · have hch : Nat.max a b = a ∨ Nat.max a b = b := by
        exact max_choice a b
      rcases hch with hm | hm
      · exact Or.inl (by rw [List.foldl_cons, h, hm])
      · exact Or.inr (by rw [List.foldl_cons, h, hm]; exact List.mem_cons_self b l)
    · exact Or.inr (List.mem_cons_of_mem _ h)

/-! Normalization lemmas (claim C4). -/

theorem tmod_lower (v : Int) (n : Nat) (hn : 0 < n) : -(n : Int) < v.tmod n := by
  cases v with
  | ofNat m =>
    have h := Int.tmod_nonneg (n : Int) (Int.ofNat_nonneg m)
    simp only [Int.ofNat_eq_coe]
    omega
  | negSucc m =>
    have h : Int.tmod (Int.negSucc m) (Int.ofNat n) = -((m.succ % n : Nat) : Int) := rfl
    have h2 : m.succ % n < n := Nat.mod_lt _ hn
    simp only [Int.ofNat_eq_coe] at h
    omega

/-- The double-`tmod` expression of `normalize` is the mathematical modulus. -/
theorem normCoord_eq_emod (v : Int) (n : Nat) (hn : 0 < n) :
    ((v.tmod n) + n).tmod n = v % n := by
  have hlow := tmod_lower v n hn
  have hn' : (0 : Int) < n := by exact_mod_cast hn
  have hnn : (0 : Int) ≤ v.tmod n + n := by omega
  rw [Int.tmod_eq_emod hnn (le_of_lt hn')]
  have h3 : (v.tmod n + (n : Int) * 1) % n = v.tmod n % n := Int.add_mul_emod_self_left _ _ _
  rw [Int.mul_one] at h3
  rw [h3]
  have h4 := Int.tmod_add_tdiv v n
  have h5 : v.tmod n = v + (n : Int) * (-(v.tdiv n)) := by linarith
  rw [h5]
  exact Int.add_mul_emod_self_left _ _ _

theorem normCoord_lt (v : Int) {n : Nat} (hn : 0 < n) : normCoord v n < n := by
  have hn' : (0 : Int) < n := by exact_mod_cast hn
  have h := Int.emod_lt_of_pos v hn'
  have h2 := Int.emod_nonneg v (ne_of_gt hn')
  unfold normCoord
  rw [normCoord_eq_emod v n hn]
  omega

theorem normCoord_add_right (v : Int) {n : Nat} (hn : 0 < n) :
    normCoord (v + n) n = normCoord v n := by
  unfold normCoord
  rw [normCoord_eq_emod v n hn, normCoord_eq_emod (v + n) n hn]
  have : (v + (n : Int) * 1) % n = v % n := Int.add_mul_emod_self_left _ _ _
  rw [Int.mul_one] at this
  rw [this]

/-- Claim C4 (amended: both dimensions must be at least 1; on a grid with a
zero dimension the Rust `%` panics instead of returning a coordinate): for
width W ≥ 1 and height H ≥ 1, `normalize(x, y)` returns a coordinate in
bounds, computed by the always-non-negative modulus, and it is periodic with
period W in x and period H in y. -/
theorem normalize_spec (m : Map) (x y : Int) (hw : 1 ≤ m.width) (hh : 1 ≤ m.height) :
    ∃ x' y' , m.normalize x y = some (x', y') ∧
      x' < m.width ∧ y' < m.height ∧
      (x' : Int) = ((x % m.width) + m.width) % m.width ∧
      (y' : Int) = ((y % m.height) + m.height) % m.height ∧
      m.normalize (x + m.width) y = m.normalize x y ∧
      m.normalize x (y + m.height) = m.normalize x y := by
  have hw0 : 0 < m.width := hw
  have hh0 : 0 < m.height := hh
  have hnone : ¬ (m.width = 0 ∨ m.height = 0) := by omega
  refine ⟨normCoord x m.width, normCoord y m.height, ?_, normCoord_lt x hw0,
    normCoord_lt y hh0, ?_, ?_, ?_, ?_⟩
  · unfold Map.normalize; rw [if_neg hnone]
  · have hW : (0 : Int) < m.width := by exact_mod_cast hw0
    unfold normCoord
    rw [normCoord_eq_emod x m.width hw0,
      Int.toNat_of_nonneg (Int.emod_nonneg x (ne_of_gt hW))]
    have h := Int.add_mul_emod_self_left (x % m.width) (m.width : Int) 1
    rw [Int.mul_one] at h
    rw [h, Int.emod_emod_of_dvd x dvd_rfl]
  · have hH : (0 : Int) < m.height := by exact_mod_cast hh0
    unfold normCoord
    rw [normCoord_eq_emod y m.height hh0,
      Int.toNat_of_nonneg (Int.emod_nonneg y (ne_of_gt hH))]
    have h := Int.add_mul_emod_self_left (y % m.height) (m.height : Int) 1
    rw [Int.mul_one] at h
    rw [h, Int.emod_emod_of_dvd y dvd_rfl]
  · unfold Map.normalize
    rw [if_neg hnone, if_neg hnone, normCoord_add_right x hw0]
  · unfold Map.normalize
    rw [if_neg hnone, if_neg hnone, normCoord_add_right y hh0]

/-- A realistic zero-width grid: the one a single-newline input constructs. -/
def zeroWidthMap : Map := { grid := [[]], width := 0, height := 1 }

/-- Claim C4 counterexample: the claim quantifies over every grid, but on a
zero-width grid (obtainable from real input) `normalize` returns no
coordinate at all — Rust's `%` by zero panics — and no coordinate could
satisfy the claimed bound x < 0 anyway. -/
theorem normalize_zero_width_cex :
    Map.construct "\n" = Except.ok zeroWidthMap ∧
    zeroWidthMap.normalize 0 0 = none ∧
    ¬ ∃ x' y' , zeroWidthMap.normalize 0 0 = some (x', y') ∧
        x' < zeroWidthMap.width ∧ y' < zeroWidthMap.height := by
  refine ⟨rfl, rfl, ?_⟩
  rintro ⟨x', y', h, hx, hy⟩
  rw [show zeroWidthMap.normalize 0 0 = none from rfl] at h
  exact Option.noConfusion h

/-- Claim C4 witness: the amended statement applied to the 7 x 4 test map at
the wrapping input (-1, 0). -/
theorem normalize_spec_witness :
    ∃ x' y' , testMap.normalize (-1) 0 = some (x', y') ∧
      x' < testMap.width ∧ y' < testMap.height ∧
      (x' : Int) = (((-1) % testMap.width) + testMap.width) % testMap.width ∧
      (y' : Int) = ((0 % testMap.height) + testMap.height) % testMap.height ∧
      testMap.normalize ((-1) + testMap.width) 0 = testMap.normalize (-1) 0 ∧
      testMap.normalize (-1) (0 + testMap.height) = testMap.normalize (-1) 0 :=
  normalize_spec testMap (-1) 0 (by decide) (by decide)

/-! Construction lemmas (claim C2). -/

theorem writeChars_length : ∀ (cs row : List Char) (x : Nat),
    (writeChars row x cs).length = row.length
  | [], _, _ => rfl
  | c :: cs, row, x => by
    rw [writeChars, writeChars_length cs (row.set x c) (x + 1), List.length_set]

theorem writeChars_getD : ∀ (cs row : List Char) (x j : Nat) (d : Char),
    x + cs.length ≤ row.length →
    (writeChars row x cs).getD j d =
      if x ≤ j ∧ j < x + cs.length then cs.getD (j - x) d else row.getD j d
  | [], row, x, j, d, _ => by
    rw [writeChars, if_neg (by simp)]
  | c :: cs, row, x, j, d, h => by
    have hlen : x < row.length := by simp at h; omega
    rw [writeChars, writeChars_getD cs (row.set x c) (x + 1) j d
      (by rw [List.length_set]; simp at h ⊢; omega)]
    by_cases hj1 : x + 1 ≤ j ∧ j < x + 1 + cs.length
    · rw [if_pos hj1, if_pos (by simp; omega)]
      have hsub : j - x = (j - (x + 1)) + 1 := by omega
      rw [hsub]
      rfl
    · rw [if_neg hj1]
      by_cases hj2 : x ≤ j ∧ j < x + (c :: cs).length
      · have hjx : j = x := by simp at hj2; omega
        subst hjx
        rw [if_pos hj2, getD_set_self row j c d hlen]
        simp
      · rw [if_neg hj2, getD_set_ne row x j c d (by simp at hj2; omega)]

theorem fillRow_length (w : Nat) (line : List Char) : (fillRow w line).length = w := by
  unfold fillRow
  rw [writeChars_length, List.length_replicate]

theorem fillRow_getD (w : Nat) (line : List Char) (j : Nat)
    (hlen : line.length ≤ w) (hj : j < w) :
    (fillRow w line).getD j ' ' = if j < line.length then line.getD j ' ' else ' ' := by
  unfold fillRow
  rw [writeChars_getD line (List.replicate w ' ') 0 j ' '
    (by rw [List.length_replicate]; omega)]
  by_cases h : j < line.length
  · rw [if_pos (by omega), if_pos h]
    simp
  · rw [if_neg (by omega), if_neg h, getD_replicate w j ' ' ' ' hj]

theorem length_le_byteLen : ∀ (l : List Char), l.length ≤ byteLen l
  | [] => Nat.le_refl 0
  | c :: cs => by
    have h1 := Char.utf8Size_pos c
    have h2 := length_le_byteLen cs
    show cs.length + 1 ≤ c.utf8Size + byteLen cs
    omega

theorem exists_max_len (L : List (List Char)) (hL : L ≠ []) :
    ∃ l ∈ L, byteLen l = (L.map byteLen).foldl Nat.max 0 := by
  rcases foldl_max_cases (L.map byteLen) 0 with h0 | hmem
  · cases L with
    | nil => exact absurd rfl hL
    | cons a L₂ =>
      refine ⟨a, List.mem_cons_self a L₂, ?_⟩
      have h1 := le_foldl_max ((a :: L₂).map byteLen) 0 (byteLen a)
        (List.mem_map_of_mem byteLen (List.mem_cons_self a L₂))
      omega
  · rcases List.mem_map.mp hmem with ⟨l, hl, hlen⟩
    exact ⟨l, hl, hlen⟩

/-- Claim C2: construction from input with at least one line succeeds with
height the number of lines and width the length — Rust `len()`, the UTF-8
byte count — of the longest line, every cell being the line character at
that character position when present and a space otherwise; zero lines fail
with the empty-input error. -/
theorem construct_spec (content : String) :
    (rustLines content = [] → Map.construct content = Except.error "File is empty") ∧
    ∀ L, L = rustLines content → L ≠ [] →
      ∃ m, Map.construct content = Except.ok m ∧
        m.height = L.length ∧
        (∀ l ∈ L, byteLen l ≤ m.width) ∧
        (∃ l ∈ L, byteLen l = m.width) ∧
        (∀ x y, x < m.width → y < m.height →
          m.get x y = if x < (L.getD y []).length then (L.getD y []).getD x ' ' else ' ') := by
  constructor
  · intro h
    simp only [Map.construct]
    rw [if_pos h]
  · intro L hLeq hL
    subst hLeq
    have hWle : ∀ l ∈ rustLines content,
        byteLen l ≤ ((rustLines content).map byteLen).foldl Nat.max 0 :=
      fun l hl => le_foldl_max _ 0 (byteLen l) (List.mem_map_of_mem byteLen hl)
    set W := ((rustLines content).map byteLen).foldl Nat.max 0 with hW
    refine ⟨Map.mk ((rustLines content).map (fillRow W)) W (rustLines content).length,
      ?_, rfl, hWle, exists_max_len (rustLines content) hL, ?_⟩
    · simp only [Map.construct]
      rw [if_neg hL]
    · intro x y hx hy
      show (((rustLines content).map (fillRow W)).getD y []).getD x ' ' = _
      rw [getD_map (fillRow W) (rustLines content) y [] [] hy,
        fillRow_getD W ((rustLines content).getD y []) x
          (Nat.le_trans (length_le_byteLen ((rustLines content).getD y []))
            (hWle _ (getD_mem (rustLines content) y [] hy))) hx]

/-- Claim C2 witness: the statement applied to the two-line input "é\nxy",
whose first line is one character but two bytes wide. -/
theorem construct_spec_witness :
    ∃ m, Map.construct "é\nxy" = Except.ok m ∧
      m.height = (rustLines "é\nxy").length ∧
      (∀ l ∈ rustLines "é\nxy", byteLen l ≤ m.width) ∧
      (∃ l ∈ rustLines "é\nxy", byteLen l = m.width) ∧
      (∀ x y, x < m.width → y < m.height →
        m.get x y = if x < ((rustLines "é\nxy").getD y []).length
          then ((rustLines "é\nxy").getD y []).getD x ' ' else ' ') :=
  (construct_spec "é\nxy").2 (rustLines "é\nxy") rfl (by decide)

/-! Cell update lemmas (claims C5, C10). -/

theorem set_of_le {α : Type} : ∀ (l : List α) (i : Nat) (v : α), l.length ≤ i → l.set i v = l
  | [], _, _, _ => rfl
  | a :: l, 0, _, h => absurd h (by simp)
  | a :: l, i + 1, v, h => by
    show a :: l.set i v = a :: l
    rw [set_of_le l i v (Nat.le_of_succ_le_succ h)]

theorem mem_of_mem_set {α : Type} :
    ∀ (l : List α) (i : Nat) (v a : α), a ∈ l.set i v → a ∈ l ∨ a = v
  | [], _, _, _, h => Or.inl h
  | b :: l, 0, v, a, h => by
    rcases List.mem_cons.mp h with rfl | h
    · exact Or.inr rfl
    · exact Or.inl (List.mem_cons_of_mem b h)
  | b :: l, i + 1, v, a, h => by
    rcases List.mem_cons.mp h with rfl | h
    · exact Or.inl (List.mem_cons_self a l)
    · rcases mem_of_mem_set l i v a h with h | h
      · exact Or.inl (List.mem_cons_of_mem b h)
      · exact Or.inr h

theorem get_set_ne (m : Map) (x y x' y' : Nat) (c : Char) (h : ¬(x' = x ∧ y' = y)) :
    (m.set x y c).get x' y' = m.get x' y' := by
  show ((m.grid.set y ((m.grid.getD y []).set x c)).getD y' []).getD x' ' ' =
    (m.grid.getD y' []).getD x' ' '
  by_cases hy : y' = y
  · subst hy
    have hx : x' ≠ x := fun he => h ⟨he, rfl⟩
    by_cases hylen : y' < m.grid.length
    · rw [getD_set_self m.grid y' ((m.grid.getD y' []).set x c) [] hylen]
      exact getD_set_ne (m.grid.getD y' []) x x' c ' ' (fun he => hx he.symm)
    · have hge : m.grid.length ≤ y' := Nat.le_of_not_lt hylen
      rw [getD_of_le (m.grid.set y' ((m.grid.getD y' []).set x c)) y' []
          (by rw [List.length_set]; exact hge),
        getD_of_le m.grid y' [] hge]
  · rw [getD_set_ne m.grid y y' ((m.grid.getD y []).set x c) [] (fun he => hy he.symm)]

theorem get_set_self (m : Map) (x y : Nat) (c : Char)
    (hy : y < m.grid.length) (hx : x < (m.grid.getD y []).length) :
    (m.set x y c).get x y = c := by
  show ((m.grid.set y ((m.grid.getD y []).set x c)).getD y []).getD x ' ' = c
  rw [getD_set_self m.grid y ((m.grid.getD y []).set x c) [] hy,
    getD_set_self (m.grid.getD y []) x c ' ' hx]

theorem set_WF (m : Map) (x y : Nat) (c : Char) (h : m.WF) : (m.set x y c).WF := by
  obtain ⟨h1, h2⟩ := h
  constructor
  · show (m.grid.set y ((m.grid.getD y []).set x c)).length = m.height
    rw [List.length_set]
    exact h1
  · intro row hrow
    by_cases hy : y < m.grid.length
    · rcases mem_of_mem_set m.grid y ((m.grid.getD y []).set x c) row hrow with hmem | heq
      · exact h2 row hmem
      · rw [heq, List.length_set]
        exact h2 (m.grid.getD y []) (getD_mem m.grid y [] hy)
    · have hrow' : row ∈ m.grid.set y ((m.grid.getD y []).set x c) := hrow
      rw [set_of_le m.grid y ((m.grid.getD y []).set x c) (Nat.le_of_not_lt hy)] at hrow'
      exact h2 row hrow'

theorem markCell_width (m : Map) (p : Point) : (markCell m p).width = m.width := by
  unfold markCell
  split <;> rfl

theorem markCell_height (m : Map) (p : Point) : (markCell m p).height = m.height := by
  unfold markCell
  split <;> rfl

theorem markCell_WF (m : Map) (p : Point) (h : m.WF) : (markCell m p).WF := by
  unfold markCell
  split
  · exact set_WF m p.1 p.2 '.' h
  · exact h

theorem markCell_get_ne (m : Map) (p : Point) (x y : Nat) (h : ¬(x = p.1 ∧ y = p.2)) :
    (markCell m p).get x y = m.get x y := by
  unfold markCell
  split
  · exact get_set_ne m p.1 p.2 x y '.' h
  · rfl

theorem markCell_keep (m : Map) (p : Point) (ch : Char) (hch : ch = 'i' ∨ ch = 'O')
    (x y : Nat) (h : m.get x y = ch) : (markCell m p).get x y = ch := by
  by_cases hq : x = p.1 ∧ y = p.2
  · obtain ⟨h1, h2⟩ := hq
    subst h1; subst h2
    unfold markCell
    rw [if_neg (by rcases hch with rfl | rfl <;> rw [h] <;> tauto)]
    exact h
  · rw [markCell_get_ne m p x y hq]
    exact h

theorem markCell_get_self (m : Map) (p : Point) (hwf : m.WF)
    (hx : p.1 < m.width) (hy : p.2 < m.height) :
    ((m.get p.1 p.2 = 'i' ∨ m.get p.1 p.2 = 'O') ∧ (markCell m p).get p.1 p.2 = m.get p.1 p.2) ∨
    (m.get p.1 p.2 ≠ 'i' ∧ m.get p.1 p.2 ≠ 'O' ∧ (markCell m p).get p.1 p.2 = '.') := by
  obtain ⟨h1, h2⟩ := hwf
  unfold markCell
  by_cases h : m.get p.1 p.2 ≠ 'i' ∧ m.get p.1 p.2 ≠ 'O'
  · right
    rw [if_pos h]
    refine ⟨h.1, h.2, get_set_self m p.1 p.2 '.' (by omega) ?_⟩
    rw [h2 (m.grid.getD p.2 []) (getD_mem m.grid p.2 [] (by omega))]
    exact hx
  · left
    rw [if_neg h]
    exact ⟨by tauto, rfl⟩

theorem mark_path_frame_get : ∀ (path : List Point) (m : Map) (x y : Nat),
    (x, y) ∉ path → (m.mark_path path).get x y = m.get x y
  | [], _, _, _, _ => rfl
  | p :: rest, m, x, y, h => by
    show (Map.mark_path (markCell m p) rest).get x y = m.get x y
    rw [mark_path_frame_get rest (markCell m p) x y (fun hc => h (List.mem_cons_of_mem p hc))]
    refine markCell_get_ne m p x y ?_
    rintro ⟨rfl, rfl⟩
    exact h (by cases p; exact List.mem_cons_self _ _)

theorem mark_path_width : ∀ (path : List Point) (m : Map),
    (m.mark_path path).width = m.width
  | [], _ => rfl
  | p :: rest, m => by
    show (Map.mark_path (markCell m p) rest).width = m.width
    rw [mark_path_width rest (markCell m p), markCell_width]

theorem mark_path_height : ∀ (path : List Point) (m : Map),
    (m.mark_path path).height = m.height
  | [], _ => rfl
  | p :: rest, m => by
    show (Map.mark_path (markCell m p) rest).height = m.height
    rw [mark_path_height rest (markCell m p), markCell_height]

theorem mark_path_WF : ∀ (path : List Point) (m : Map), m.WF → (m.mark_path path).WF
  | [], _, h => h
  | p :: rest, m, h => mark_path_WF rest (markCell m p) (markCell_WF m p h)

theorem mark_path_keep : ∀ (path : List Point) (m : Map) (ch : Char),
    (ch = 'i' ∨ ch = 'O') → ∀ x y, m.get x y = ch → (m.mark_path path).get x y = ch
  | [], _, _, _, _, _, h => h
  | p :: rest, m, ch, hch, x, y, h =>
    mark_path_keep rest (markCell m p) ch hch x y (markCell_keep m p ch hch x y h)

theorem mark_path_mem : ∀ (path : List Point) (m : Map), m.WF →
    (∀ c ∈ path, c.1 < m.width ∧ c.2 < m.height) →
    ∀ c ∈ path,
      ((m.get c.1 c.2 = 'i' ∨ m.get c.1 c.2 = 'O') →
        (m.mark_path path).get c.1 c.2 = m.get c.1 c.2) ∧
      (m.get c.1 c.2 ≠ 'i' → m.get c.1 c.2 ≠ 'O' → (m.mark_path path).get c.1 c.2 = '.')
  | p :: rest, m, hwf, hin, c, hc => by
    constructor
    · intro hio
      rw [mark_path_keep (p :: rest) m (m.get c.1 c.2) hio c.1 c.2 rfl]
    · intro hi ho
      have hcb := hin c hc
      by_cases hcrest : c ∈ rest
      · have hrec := mark_path_mem rest (markCell m p) (markCell_WF m p hwf)
          (fun q hq => by rw [markCell_width, markCell_height]; exact hin q (List.mem_cons_of_mem p hq))
          c hcrest
        by_cases hcp : c.1 = p.1 ∧ c.2 = p.2
        · obtain ⟨h1, h2⟩ := hcp
          rcases markCell_get_self m p hwf (h1 ▸ hcb.1) (h2 ▸ hcb.2) with ⟨hio, _⟩ | ⟨_, _, hdot⟩
          · exact absurd (h1 ▸ h2 ▸ hio : m.get c.1 c.2 = 'i' ∨ m.get c.1 c.2 = 'O')
              (by tauto)
          · have hget : (markCell m p).get c.1 c.2 = '.' := by rw [h1, h2]; exact hdot
            show (Map.mark_path (markCell m p) rest).get c.1 c.2 = '.'
            exact (hrec.2 (by rw [hget]; decide) (by rw [hget]; decide))
        · have hget : (markCell m p).get c.1 c.2 = m.get c.1 c.2 := markCell_get_ne m p c.1 c.2 hcp
          show (Map.mark_path (markCell m p) rest).get c.1 c.2 = '.'
          exact hrec.2 (by rw [hget]; exact hi) (by rw [hget]; exact ho)
      · have hcp : c = p := by
          rcases List.mem_cons.mp hc with h | h
          · exact h
          · exact absurd h hcrest
        subst hcp
        have hdot : (markCell m c).get c.1 c.2 = '.' := by
          rcases markCell_get_self m c hwf hcb.1 hcb.2 with ⟨hio, _⟩ | ⟨_, _, hdot⟩
          · exact absurd hio (by tauto)
          · exact hdot
        show (Map.mark_path (markCell m c) rest).get c.1 c.2 = '.'
        rw [mark_path_frame_get rest (markCell m c) c.1 c.2 (by cases c; exact hcrest), hdot]

/-- Claim C5: after mark_path, every path cell that held an endpoint marker
keeps it and every other path cell holds '.'; in particular any cell holding
the entry marker 'i' or the exit marker 'O' — such as the bfs start and end
— still holds it afterwards. -/
theorem mark_path_protects (m : Map) (path : List Point) (hwf : m.WF)
    (hin : ∀ c ∈ path, c.1 < m.width ∧ c.2 < m.height) :
    (∀ c ∈ path,
      ((m.get c.1 c.2 = 'i' ∨ m.get c.1 c.2 = 'O') →
        (m.mark_path path).get c.1 c.2 = m.get c.1 c.2) ∧
      (m.get c.1 c.2 ≠ 'i' → m.get c.1 c.2 ≠ 'O' →
        (m.mark_path path).get c.1 c.2 = '.')) ∧
    (∀ x y, m.get x y = 'i' → (m.mark_path path).get x y = 'i') ∧
    (∀ x y, m.get x y = 'O' → (m.mark_path path).get x y = 'O') :=
  ⟨mark_path_mem path m hwf hin,
   fun x y h => mark_path_keep path m 'i' (Or.inl rfl) x y h,
   fun x y h => mark_path_keep path m 'O' (Or.inr rfl) x y h⟩

/-- Claim C5 witness: the statement applied to the test map and the path its
search returns. -/
theorem mark_path_protects_witness :
    (∀ c ∈ testPath,
      ((testMap.get c.1 c.2 = 'i' ∨ testMap.get c.1 c.2 = 'O') →
        (testMap.mark_path testPath).get c.1 c.2 = testMap.get c.1 c.2) ∧
      (testMap.get c.1 c.2 ≠ 'i' → testMap.get c.1 c.2 ≠ 'O' →
        (testMap.mark_path testPath).get c.1 c.2 = '.')) ∧
    (∀ x y, testMap.get x y = 'i' → (testMap.mark_path testPath).get x y = 'i') ∧
    (∀ x y, testMap.get x y = 'O' → (testMap.mark_path testPath).get x y = 'O') :=
  mark_path_protects testMap testPath (by decide) (by decide)

/-- Claim C10: mark_path writes only cells whose coordinate occurs in the
path, and it keeps the grid's dimensions. -/
theorem mark_path_frame_spec (m : Map) (path : List Point) (_hwf : m.WF)
    (_hin : ∀ c ∈ path, c.1 < m.width ∧ c.2 < m.height) :
    (∀ x y, (x, y) ∉ path → (m.mark_path path).get x y = m.get x y) ∧
    (m.mark_path path).width = m.width ∧ (m.mark_path path).height = m.height :=
  ⟨fun x y h => mark_path_frame_get path m x y h,
   mark_path_width path m, mark_path_height path m⟩

/-- Claim C10 witness: the statement applied to the test map and the path
its search returns. -/
theorem mark_path_frame_spec_witness :
    (∀ x y, (x, y) ∉ testPath →
      (testMap.mark_path testPath).get x y = testMap.get x y) ∧
    (testMap.mark_path testPath).width = testMap.width ∧
    (testMap.mark_path testPath).height = testMap.height :=
  mark_path_frame_spec testMap testPath (by decide) (by decide)

/-! Search-order lemmas for find (claim C6). -/

theorem findRowAux_none_iff (m : Map) (t : Char) (y : Nat) :
    ∀ (fuel x : Nat), (findRowAux m t y x fuel = none ↔ ∀ i < fuel, m.get (x + i) y ≠ t)
  | 0, x => by simp [findRowAux]
  | fuel + 1, x => by
    rw [findRowAux]
    by_cases h : m.get x y = t
    · rw [if_pos h]
      constructor
      · intro hc
        exact Option.noConfusion hc
      · intro hall
        have h0 := hall 0 (Nat.succ_pos fuel)
        rw [Nat.add_zero] at h0
        exact absurd h h0
    · rw [if_neg h, findRowAux_none_iff m t y fuel (x + 1)]
      constructor
      · intro hall i hi
        cases i with
        | zero => rw [Nat.add_zero]; exact h
        | succ i =>
          have := hall i (by omega)
          rw [show x + (i + 1) = x + 1 + i from by omega]
          exact this
      · intro hall i hi
        have := hall (i + 1) (by omega)
        rw [show x + 1 + i = x + (i + 1) from by omega]
        exact this

theorem findRowAux_some_spec (m : Map) (t : Char) (y : Nat) :
    ∀ (fuel x : Nat) (p : Point), findRowAux m t y x fuel = some p →
      ∃ i, i < fuel ∧ p = (x + i, y) ∧ m.get (x + i) y = t ∧ ∀ j < i, m.get (x + j) y ≠ t
  | 0, x, p, h => by simp [findRowAux] at h
  | fuel + 1, x, p, h => by
    rw [findRowAux] at h
    by_cases hx : m.get x y = t
    · rw [if_pos hx] at h
      injection h with h
      exact ⟨0, Nat.succ_pos fuel, h.symm, by rw [Nat.add_zero]; exact hx, by omega⟩
    · rw [if_neg hx] at h
      obtain ⟨i, hi, hp, ht, hbefore⟩ := findRowAux_some_spec m t y fuel (x + 1) p h
      refine ⟨i + 1, by omega, ?_, ?_, ?_⟩
      · rw [hp]
        congr 1
        omega
      · rw [show x + (i + 1) = x + 1 + i from by omega]
        exact ht
      · intro j hj
        cases j with
        | zero => rw [Nat.add_zero]; exact hx
        | succ j =>
          have := hbefore j (by omega)
          rw [show x + (j + 1) = x + 1 + j from by omega]
          exact this

theorem findColAux_none_iff (m : Map) (t : Char) :
    ∀ (fuel y : Nat),
      (findColAux m t y fuel = none ↔ ∀ j < fuel, findRowAux m t (y + j) 0 m.width = none)
  | 0, y => by simp [findColAux]
  | fuel + 1, y => by
    rw [findColAux]
    cases hrow : findRowAux m t y 0 m.width with
    | some p =>
      constructor
      · intro hc
        exact Option.noConfusion hc
      · intro hall
        have h0 := hall 0 (Nat.succ_pos fuel)
        rw [Nat.add_zero] at h0
        rw [h0] at hrow
        exact Option.noConfusion hrow
    | none =>
      rw [findColAux_none_iff m t fuel (y + 1)]
      constructor
      · intro hall j hj
        cases j with
        | zero => rw [Nat.add_zero]; exact hrow
        | succ j =>
          have := hall j (by omega)
          rw [show y + (j + 1) = y + 1 + j from by omega]
          exact this
      · intro hall j hj
        have := hall (j + 1) (by omega)
        rw [show y + 1 + j = y + (j + 1) from by omega]
        exact this

theorem findColAux_some_spec (m : Map) (t : Char) :
    ∀ (fuel y : Nat) (p : Point), findColAux m t y fuel = some p →
      ∃ j, j < fuel ∧ findRowAux m t (y + j) 0 m.width = some p ∧
        ∀ k < j, findRowAux m t (y + k) 0 m.width = none
  | 0, y, p, h => by simp [findColAux] at h
  | fuel + 1, y, p, h => by
    rw [findColAux] at h
    cases hrow : findRowAux m t y 0 m.width with
    | some q =>
      rw [hrow] at h
      injection h with h
      subst h
      exact ⟨0, Nat.succ_pos fuel, by rw [Nat.add_zero]; exact hrow, by omega⟩
    | none =>
      rw [hrow] at h
      obtain ⟨j, hj, hfound, hbefore⟩ := findColAux_some_spec m t fuel (y + 1) p h
      refine ⟨j + 1, by omega, ?_, ?_⟩
      · rw [show y + (j + 1) = y + 1 + j from by omega]
        exact hfound
      · intro k hk
        cases k with
        | zero => rw [Nat.add_zero]; exact hrow
        | succ k =>
          have := hbefore k (by omega)
          rw [show y + (k + 1) = y + 1 + k from by omega]
          exact this

/-- Claim C6: find scans rows top-to-bottom and columns left-to-right within
each row, returning the first coordinate whose cell equals the target — so
every strictly earlier coordinate in row-major order does not match — and
returns none exactly when no in-bounds cell matches. -/
theorem find_first_match (m : Map) (target : Char) (_hwf : m.WF) :
    (∀ x y, m.find target = some (x, y) →
      x < m.width ∧ y < m.height ∧ m.get x y = target ∧
      ∀ x' y', x' < m.width → y' < m.height →
        (y' < y ∨ (y' = y ∧ x' < x)) → m.get x' y' ≠ target) ∧
    (m.find target = none ↔
      ∀ x y, x < m.width → y < m.height → m.get x y ≠ target) := by
  constructor
  · intro x y hfound
    obtain ⟨j, hj, hrowfound, hbefore⟩ := findColAux_some_spec m target m.height 0 (x, y) hfound
    rw [Nat.zero_add] at hrowfound
    obtain ⟨i, hi, hp, ht, hrowbefore⟩ := findRowAux_some_spec m target j m.width 0 (x, y) hrowfound
    rw [Nat.zero_add] at hp ht
    have hx : x = i := congrArg Prod.fst hp
    have hy : y = j := congrArg Prod.snd hp
    subst hx; subst hy
    refine ⟨hi, hj, ht, ?_⟩
    intro x' y' hx' hy' horder hmatch
    rcases horder with h | ⟨rfl, h⟩
    · have hnone := hbefore y' h
      rw [Nat.zero_add] at hnone
      exact (findRowAux_none_iff m target y' m.width 0).mp hnone x' (by omega)
        (by rw [Nat.zero_add]; exact hmatch)
    · have := hrowbefore x' h
      rw [Nat.zero_add] at this
      exact this hmatch
  · rw [show m.find target = findColAux m target 0 m.height from rfl,
      findColAux_none_iff m target m.height 0]
    constructor
    · intro hall x y hx hy hmatch
      have := (findRowAux_none_iff m target y m.width 0).mp
        (by have := hall y (by omega); rw [Nat.zero_add] at this; exact this) x hx
      rw [Nat.zero_add] at this
      exact this hmatch
    · intro hall j hj
      rw [Nat.zero_add, findRowAux_none_iff m target j m.width 0]
      intro i hi
      rw [Nat.zero_add]
      exact hall i j hi hj

/-- Claim C6 witness: the statement applied to the test map and the entry
marker, found at (4, 1). -/
theorem find_first_match_witness :
    (∀ x y, testMap.find 'i' = some (x, y) →
      x < testMap.width ∧ y < testMap.height ∧ testMap.get x y = 'i' ∧
      ∀ x' y', x' < testMap.width → y' < testMap.height →
        (y' < y ∨ (y' = y ∧ x' < x)) → testMap.get x' y' ≠ 'i') ∧
    (testMap.find 'i' = none ↔
      ∀ x y, x < testMap.width → y < testMap.height → testMap.get x y ≠ 'i') :=
  find_first_match testMap 'i' (by decide)

/-! Driver lemmas (claim C7). -/

/-- Claim C7: after a successful load, if an endpoint marker is missing or
the search finds no path, the driver changes nothing and prints the
unmodified grid — rows joined by newlines, padding included — with exit
status 0; and what is printed is always the grid text of the driven map. -/
theorem drive_soft_failure (m : Map) (_hwf : m.WF)
    (h : m.find 'i' = none ∨ m.find 'O' = none ∨
      ∃ s e, m.find 'i' = some s ∧ m.find 'O' = some e ∧ m.bfs s e = none) :
    drive m = m ∧
    driveOutput m = (String.intercalate "\n" (m.grid.map List.asString), 0) ∧
    driveOutput m = ((drive m).to_string, 0) := by
  have hd : drive m = m := by
    rcases h with h | h | ⟨s, e, hs, he, hb⟩
    · cases hO : m.find 'O' <;> simp only [drive, h, hO]
    · cases hI : m.find 'i' <;> simp only [drive, hI, h]
    · simp only [drive, hs, he, hb]
  refine ⟨hd, ?_, rfl⟩
  show ((drive m).to_string, 0) = _
  rw [hd]
  rfl

/-- A map with no entry marker, for the C7 witness. -/
def noEntryMap : Map := { grid := [[' ', 'O']], width := 2, height := 1 }

/-- Claim C7 witness: the statement applied to a grid whose entry marker is
absent. -/
theorem drive_soft_failure_witness :
    drive noEntryMap = noEntryMap ∧
    driveOutput noEntryMap =
      (String.intercalate "\n" (noEntryMap.grid.map List.asString), 0) ∧
    driveOutput noEntryMap = ((drive noEntryMap).to_string, 0) :=
  drive_soft_failure noEntryMap (by decide) (Or.inl (by decide))

/-! Reachability and distance lemmas (claims C1, C3, C8, C9). -/

theorem reachN_zero {m : Map} {s c : Point} : ReachN m s 0 c ↔ c = s := Iff.rfl

theorem reachN_succ {m : Map} {s c : Point} {n : Nat} :
    ReachN m s (n + 1) c ↔ ∃ p, ReachN m s n p ∧ Step m p c := Iff.rfl

theorem exists_isDist (m : Map) (s c : Point) (h : Reach m s c) : ∃ n, IsDist m s c n := by
  classical
  exact ⟨Nat.find h, Nat.find_spec h, fun k hk => Nat.find_min h hk⟩

theorem isDist_le {m : Map} {s c : Point} {n k : Nat}
    (h : IsDist m s c n) (hk : ReachN m s k c) : n ≤ k := by
  by_contra hlt
  exact h.2 k (Nat.lt_of_not_le hlt) hk

theorem isDist_unique {m : Map} {s c : Point} {n n' : Nat}
    (h : IsDist m s c n) (h' : IsDist m s c n') : n = n' :=
  Nat.le_antisymm (isDist_le h h'.1) (isDist_le h' h.1)

theorem isDist_start (m : Map) (s : Point) : IsDist m s s 0 :=
  ⟨rfl, fun k hk => absurd hk (Nat.not_lt_zero k)⟩

theorem isDist_succ_ne_start {m : Map} {s c : Point} {n : Nat}
    (h : IsDist m s c (n + 1)) : c ≠ s :=
  fun he => h.2 0 (Nat.succ_pos n) (he ▸ rfl)

theorem isDist_layer {m : Map} {s c : Point} {n : Nat} (h : IsDist m s c (n + 1)) :
    ∃ p, Step m p c ∧ IsDist m s p n := by
  obtain ⟨hr, hmin⟩ := h
  obtain ⟨p, hp, hstep⟩ := reachN_succ.mp hr
  obtain ⟨k, hk⟩ := exists_isDist m s p ⟨n, hp⟩
  have hkn : k ≤ n := isDist_le hk hp
  rcases Nat.lt_or_ge k n with hlt | hge
  · exact absurd (reachN_succ.mpr ⟨p, hk.1, hstep⟩) (hmin (k + 1) (by omega))
  · have : k = n := Nat.le_antisymm hkn hge
    exact ⟨p, hstep, this ▸ hk⟩

theorem reachN_inb {m : Map} {s : Point} (hw : 0 < m.width) (hh : 0 < m.height)
    (hs : InB m s) : ∀ (n : Nat) (c : Point), ReachN m s n c → InB m c
  | 0, c, h => (reachN_zero.mp h) ▸ hs
  | n + 1, c, h => by
    obtain ⟨p, _, hstep⟩ := reachN_succ.mp h
    obtain ⟨d, _, hc⟩ := hstep.1
    rw [hc]
    exact ⟨normCoord_lt _ hw, normCoord_lt _ hh⟩

theorem reachN_nonwall {m : Map} {s : Point} :
    ∀ (n : Nat) (c : Point), ReachN m s n c → c = s ∨ m.get c.1 c.2 ≠ '#'
  | 0, _, h => Or.inl (reachN_zero.mp h)
  | _ + 1, _, h => Or.inr (reachN_succ.mp h).choose_spec.2.2

theorem isDist_chain {m : Map} {s : Point} :
    ∀ (n : Nat) (c : Point), IsDist m s c n →
      ∃ g : Nat → Point, g n = c ∧ ∀ k ≤ n, IsDist m s (g k) k
  | 0, c, h => by
    refine ⟨fun _ => c, rfl, ?_⟩
    intro k hk
    have hk0 : k = 0 := Nat.le_zero.mp hk
    subst hk0
    exact h
  | n + 1, c, h => by
    obtain ⟨p, hstep, hp⟩ := isDist_layer h
    obtain ⟨g, hg, hall⟩ := isDist_chain n p hp
    refine ⟨fun k => if k = n + 1 then c else g k, by simp, ?_⟩
    intro k hk
    by_cases hkn : k = n + 1
    · subst hkn
      simpa using h
    · have hk' : k ≤ n := by omega
      simpa [hkn] using hall k hk'

theorem isDist_lt_card {m : Map} {s c : Point} {n : Nat}
    (hw : 0 < m.width) (hh : 0 < m.height) (hs : InB m s)
    (h : IsDist m s c n) : n < m.width * m.height := by
  obtain ⟨g, _, hall⟩ := isDist_chain n c h
  have hmap : ∀ a ∈ Finset.range (n + 1),
      g a ∈ Finset.range m.width ×ˢ Finset.range m.height := by
    intro a ha
    have ha' : a ≤ n := by
      have := Finset.mem_range.mp ha
      omega
    have hinb : InB m (g a) := reachN_inb hw hh hs a (g a) (hall a ha').1
    rw [Finset.mem_product]
    exact ⟨Finset.mem_range.mpr hinb.1, Finset.mem_range.mpr hinb.2⟩
  have hinj : Set.InjOn g (Finset.range (n + 1)) := by
    intro a ha b hb hab
    have ha' : a ≤ n := by
      have := Finset.mem_range.mp (Finset.mem_coe.mp ha)
      omega
    have hb' : b ≤ n := by
      have := Finset.mem_range.mp (Finset.mem_coe.mp hb)
      omega
    exact isDist_unique (hall a ha') (hab ▸ hall b hb')
  have hcard := Finset.card_le_card_of_injOn g hmap hinj
  rw [Finset.card_range, Finset.card_product, Finset.card_range, Finset.card_range] at hcard
  omega

/-! Chain lemmas: properties of reconstructed paths. -/

theorem chainL_reachN {m : Map} {s : Point} :
    ∀ {l : List Point} {c : Point}, ChainL m s l c → ReachN m s l.length c := by
  intro l c h
  induction h with
  | nil => exact rfl
  | snoc hl hstep ih =>
    rw [List.length_append, List.length_singleton]
    exact reachN_succ.mpr ⟨_, ih, hstep⟩

theorem getLastD_cons (q : Point) (l : List Point) (s : Point) :
    (q :: l).getLast?.getD s = l.getLast?.getD q := by
  cases l with
  | nil => rfl
  | cons a l => rw [List.getLast?_cons_cons]; rfl

theorem adjSeq_snoc {m : Map} :
    ∀ (l : List Point) (s p c : Point), adjSeq m s l → l.getLast?.getD s = p →
      Adj m p c → adjSeq m s (l ++ [c])
  | [], s, p, c, _, hlast, hadj => by
    have : s = p := by simpa using hlast
    exact ⟨this ▸ hadj, trivial⟩
  | q :: l, s, p, c, hseq, hlast, hadj => by
    rw [getLastD_cons q l s] at hlast
    exact ⟨hseq.1, adjSeq_snoc l q p c hseq.2 hlast hadj⟩

theorem chainL_props {m : Map} {s : Point} :
    ∀ {l : List Point} {c : Point}, ChainL m s l c →
      adjSeq m s l ∧ l.getLast?.getD s = c ∧ ∀ q ∈ l, m.get q.1 q.2 ≠ '#' := by
  intro l c h
  induction h with
  | nil => exact ⟨trivial, rfl, fun q hq => absurd hq (List.not_mem_nil q)⟩
  | @snoc l p c hl hstep ih =>
    obtain ⟨hseq, hlast, hwall⟩ := ih
    refine ⟨adjSeq_snoc l s p c hseq hlast hstep.1, ?_, ?_⟩
    · rw [List.getLast?_concat]
      rfl
    · intro q hq
      rcases List.mem_append.mp hq with hq | hq
      · exact hwall q hq
      · rw [List.mem_singleton.mp hq]
        exact hstep.2

/-! The spec-side graph agrees with the search steps when the start cell is
not a wall. -/

theorem specReachN_iff {m : Map} {s : Point} (hsw : m.get s.1 s.2 ≠ '#') :
    ∀ (n : Nat) (c : Point), SpecReachN m s n c ↔ ReachN m s n c
  | 0, c => Iff.rfl
  | n + 1, c => by
    constructor
    · rintro ⟨p, hp, hstep⟩
      exact reachN_succ.mpr ⟨p, (specReachN_iff hsw n p).mp hp, hstep.2.2, hstep.2.1⟩
    · rintro ⟨p, hp, hstep⟩
      have hpw : m.get p.1 p.2 ≠ '#' := by
        rcases reachN_nonwall n p hp with rfl | hw
        · exact hsw
        · exact hw
      exact ⟨p, (specReachN_iff hsw n p).mpr hp, hpw, hstep.2, hstep.1⟩

/-! Counting unvisited cells: the termination measure. -/

theorem unvisCount_setV (m : Map) (vis : Point → Bool) (p : Point)
    (hin : InB m p) (hvis : vis p = false) :
    unvisCount m (setV vis p) + 1 = unvisCount m vis := by
  unfold unvisCount
  have hmem : p ∈ (Finset.range m.width ×ˢ Finset.range m.height).filter
      (fun q => vis q = false) := by
    rw [Finset.mem_filter, Finset.mem_product]
    exact ⟨⟨Finset.mem_range.mpr hin.1, Finset.mem_range.mpr hin.2⟩, hvis⟩
  have heq : (Finset.range m.width ×ˢ Finset.range m.height).filter
        (fun q => setV vis p q = false) =
      ((Finset.range m.width ×ˢ Finset.range m.height).filter
        (fun q => vis q = false)).erase p := by
    ext q
    rw [Finset.mem_erase, Finset.mem_filter, Finset.mem_filter]
    unfold setV
    constructor
    · intro ⟨hq, hval⟩
      by_cases hqp : q = p
      · rw [if_pos hqp] at hval
        exact absurd hval (by decide)
      · rw [if_neg hqp] at hval
        exact ⟨hqp, hq, hval⟩
    · intro ⟨hqp, hq, hval⟩
      rw [if_neg hqp]
      exact ⟨hq, hval⟩
  rw [heq, Finset.card_erase_of_mem hmem]
  have hpos : 0 < ((Finset.range m.width ×ˢ Finset.range m.height).filter
      (fun q => vis q = false)).card := Finset.card_pos.mpr ⟨p, hmem⟩
  omega

theorem unvisCount_false (m : Map) :
    unvisCount m (fun _ => false) = m.width * m.height := by
  unfold unvisCount
  rw [Finset.filter_true_of_mem (fun _ _ => rfl), Finset.card_product,
    Finset.card_range, Finset.card_range]

/-! State-update lemmas. -/

theorem setV_self (vis : Point → Bool) (p : Point) : setV vis p p = true := if_pos rfl

theorem setV_mono {vis : Point → Bool} {p q : Point} (h : vis q = true) :
    setV vis p q = true := by
  unfold setV
  by_cases hq : q = p
  · rw [if_pos hq]
  · rw [if_neg hq]
    exact h

theorem setV_eq_true_iff {vis : Point → Bool} {p q : Point} :
    setV vis p q = true ↔ q = p ∨ vis q = true := by
  unfold setV
  by_cases hq : q = p
  · rw [if_pos hq]
    simp [hq]
  · rw [if_neg hq]
    simp [hq]

theorem setP_self (par : Point → Option Point) (p u : Point) :
    setP par p u p = some u := if_pos rfl

theorem setP_other {par : Point → Option Point} {p u q : Point} (h : q ≠ p) :
    setP par p u q = par q := if_neg h

/-- The loop invariant of `bfs`.  The queue is `A ++ B` where every member
of `A` is at distance `L` from the start and every member of `B` at distance
`L + 1`; every cell at distance at most `L` has been visited; parent links
of visited cells step from a visited cell one level down; and every
neighbour of a visited cell no longer in the queue is visited. -/
structure Inv (m : Map) (start endp : Point) (L : Nat) (A B : List Point)
    (vis : Point → Bool) (par : Point → Option Point) : Prop where
  hw : 0 < m.width
  hh : 0 < m.height
  start_inb : InB m start
  vis_start : vis start = true
  queue_vis : ∀ p ∈ A ++ B, vis p = true
  queue_nodup : (A ++ B).Nodup
  vis_inb : ∀ p, vis p = true → InB m p
  vis_reach : ∀ p, vis p = true → Reach m start p
  par_ok : ∀ c, vis c = true → c ≠ start →
    ∃ p n, par c = some p ∧ vis p = true ∧ Step m p c ∧
      IsDist m start p n ∧ IsDist m start c (n + 1)
  lvl_A : ∀ a ∈ A, IsDist m start a L
  lvl_B : ∀ b ∈ B, IsDist m start b (L + 1)
  complete_le : ∀ c k, IsDist m start c k → k ≤ L → vis c = true
  closure : ∀ u, vis u = true → u ∉ A ++ B → ∀ c, Step m u c → vis c = true
  end_in_queue : vis endp = true → endp ∈ A ++ B

/-- Walking parent links of a visited cell at distance `n` reconstructs a
step chain of length `n` from the start, never revisiting the start. -/
theorem reconstruct_spec (m : Map) (start : Point) (vis : Point → Bool)
    (par : Point → Option Point)
    (hpar : ∀ c, vis c = true → c ≠ start →
      ∃ p n, par c = some p ∧ vis p = true ∧ Step m p c ∧
        IsDist m start p n ∧ IsDist m start c (n + 1)) :
    ∀ (n : Nat) (c : Point), vis c = true → IsDist m start c n →
      ∀ (fuel : Nat), n ≤ fuel → ∀ (acc : List Point),
        ∃ l, reconstruct par start fuel c acc = some (l ++ acc.reverse) ∧
          l.length = n ∧ ChainL m start l c ∧ ∀ q ∈ l, q ≠ start
  | 0, c, _, hdist, fuel, _, acc => by
    have hc : c = start := reachN_zero.mp hdist.1
    subst hc
    refine ⟨[], ?_, rfl, ChainL.nil, fun q hq => absurd hq (List.not_mem_nil q)⟩
    cases fuel with
    | zero => rw [reconstruct, if_pos rfl]; rfl
    | succ f => rw [reconstruct, if_pos rfl]; rfl
  | n + 1, c, hvis, hdist, fuel, hfuel, acc => by
    have hcs : c ≠ start := isDist_succ_ne_start hdist
    obtain ⟨p, k, hparc, hvisp, hstep, hdp, hdc⟩ := hpar c hvis hcs
    have hkn : k = n := by
      have := isDist_unique hdc hdist
      omega
    subst hkn
    obtain ⟨f, rfl⟩ : ∃ f, fuel = f + 1 := ⟨fuel - 1, by omega⟩
    obtain ⟨l', hrec, hlen, hchain, hmem⟩ :=
      reconstruct_spec m start vis par hpar k p hvisp hdp f (by omega) (acc ++ [c])
    refine ⟨l' ++ [c], ?_, ?_, ChainL.snoc hchain hstep, ?_⟩
    · rw [reconstruct, if_neg hcs, hparc]
      show reconstruct par start f p (acc ++ [c]) = _
      rw [hrec]
      congr 1
      rw [List.reverse_append]
      simp
    · rw [List.length_append, List.length_singleton, hlen]
    · intro q hq
      rcases List.mem_append.mp hq with hq | hq
      · exact hmem q hq
      · rw [List.mem_singleton.mp hq]
        exact hcs

/-- Processing one direction of the dequeued cell `u` preserves the
invariant (with `u` still counted as queued), only grows the visited set,
keeps the sum of queue length and unvisited count, and leaves the
non-wall neighbour in that direction visited. -/
theorem expand_preserve (m : Map) (start endp u : Point) (L : Nat) (A : List Point)
    (d : Int × Int) (hd : d ∈ directions) (B : List Point) (vis : Point → Bool)
    (par : Point → Option Point) (hInv : Inv m start endp L (u :: A) B vis par) :
    ∃ B' vis' par',
      expand m u (vis, par, A ++ B) d = (vis', par', A ++ B') ∧
      Inv m start endp L (u :: A) B' vis' par' ∧
      (∀ q, vis q = true → vis' q = true) ∧
      (A ++ B').length + unvisCount m vis' = (A ++ B).length + unvisCount m vis ∧
      (m.get (normP m ((u.1 : Int) + d.1) ((u.2 : Int) + d.2)).1
          (normP m ((u.1 : Int) + d.1) ((u.2 : Int) + d.2)).2 ≠ '#' →
        vis' (normP m ((u.1 : Int) + d.1) ((u.2 : Int) + d.2)) = true) := by
  set nb := normP m ((u.1 : Int) + d.1) ((u.2 : Int) + d.2) with hnb
  by_cases hcond : m.get nb.1 nb.2 ≠ '#' ∧ vis nb = false
  case neg =>
    refine ⟨B, vis, par, ?_, hInv, fun q h => h, rfl, ?_⟩
    · simp only [expand]
      rw [← hnb, if_neg hcond]
    · intro hwall
      cases hv : vis nb with
      | true => rfl
      | false => exact absurd ⟨hwall, hv⟩ hcond
  case pos =>
    obtain ⟨hwall, hunvis⟩ := hcond
    have hw := hInv.hw
    have hh := hInv.hh
    have hu_vis : vis u = true := hInv.queue_vis u (List.mem_cons_self u (A ++ B))
    have hdistu : IsDist m start u L := hInv.lvl_A u (List.mem_cons_self u A)
    have hstep : Step m u nb := ⟨⟨d, hd, hnb⟩, hwall⟩
    have hnb_inb : InB m nb := ⟨normCoord_lt _ hw, normCoord_lt _ hh⟩
    have hreach_nb : Reach m start nb := by
      obtain ⟨ku, hku⟩ := hInv.vis_reach u hu_vis
      exact ⟨ku + 1, reachN_succ.mpr ⟨u, hku, hstep⟩⟩
    have hdist_nb : IsDist m start nb (L + 1) := by
      obtain ⟨k, hk⟩ := exists_isDist m start nb hreach_nb
      have hreachL1 : ReachN m start (L + 1) nb := reachN_succ.mpr ⟨u, hdistu.1, hstep⟩
      have hkle : k ≤ L + 1 := isDist_le hk hreachL1
      have hkgt : ¬ k ≤ L := fun hle => by
        have hv := hInv.complete_le nb k hk hle
        rw [hv] at hunvis
        exact Bool.noConfusion hunvis
      have hkeq : k = L + 1 := by omega
      exact hkeq ▸ hk
    have hnb_fresh : nb ∉ (u :: A) ++ B := fun hmem => by
      have hv := hInv.queue_vis nb hmem
      rw [hv] at hunvis
      exact Bool.noConfusion hunvis
    have hvis_ne : ∀ q, vis q = true → q ≠ nb := fun q hq he => by
      rw [he, hunvis] at hq
      exact Bool.noConfusion hq
    refine ⟨B ++ [nb], setV vis nb, setP par nb u, ?_, ?_,
      fun q h => setV_mono h, ?_, fun _ => setV_self vis nb⟩
    · simp only [expand]
      rw [← hnb, if_pos ⟨hwall, hunvis⟩, List.append_assoc]
    · refine ⟨hw, hh, hInv.start_inb, setV_mono hInv.vis_start, ?_, ?_, ?_, ?_, ?_,
        hInv.lvl_A, ?_, ?_, ?_, ?_⟩
      · intro p hp
        rcases List.mem_append.mp hp with hp | hp
        · exact setV_mono (hInv.queue_vis p (List.mem_append.mpr (Or.inl hp)))
        · rcases List.mem_append.mp hp with hp | hp
          · exact setV_mono (hInv.queue_vis p (List.mem_append.mpr (Or.inr hp)))
          · rw [List.mem_singleton.mp hp]
            exact setV_self vis nb
      · rw [show (u :: A) ++ (B ++ [nb]) = ((u :: A) ++ B) ++ [nb] from
          (List.append_assoc _ _ _).symm]
        refine List.Nodup.append hInv.queue_nodup (List.nodup_singleton nb) ?_
        intro x hx hx'
        rw [List.mem_singleton.mp hx'] at hx
        exact hnb_fresh hx
      · intro p hp
        rcases setV_eq_true_iff.mp hp with rfl | hp
        · exact hnb_inb
        · exact hInv.vis_inb p hp
      · intro p hp
        rcases setV_eq_true_iff.mp hp with rfl | hp
        · exact hreach_nb
        · exact hInv.vis_reach p hp
      · intro c hc hcs
        rcases setV_eq_true_iff.mp hc with rfl | hc
        · exact ⟨u, L, setP_self par nb u, setV_mono hu_vis, hstep, hdistu, hdist_nb⟩
        · obtain ⟨p, k, hp1, hp2, hp3, hp4, hp5⟩ := hInv.par_ok c hc hcs
          exact ⟨p, k, by rw [setP_other (hvis_ne c hc)]; exact hp1,
            setV_mono hp2, hp3, hp4, hp5⟩
      · intro b hb
        rcases List.mem_append.mp hb with hb | hb
        · exact hInv.lvl_B b hb
        · rw [List.mem_singleton.mp hb]
          exact hdist_nb
      · intro c k hk hkle
        exact setV_mono (hInv.complete_le c k hk hkle)
      · intro v hv hvq c hstepc
        have hvnb : v ≠ nb := fun he => hvq (he ▸ List.mem_append.mpr
          (Or.inr (List.mem_append.mpr (Or.inr (List.mem_singleton.mpr rfl)))))
        have hv' : vis v = true := by
          rcases setV_eq_true_iff.mp hv with he | h
          · exact absurd he hvnb
          · exact h
        have hvq' : v ∉ (u :: A) ++ B := fun hmem => hvq (by
          rcases List.mem_append.mp hmem with h | h
          · exact List.mem_append.mpr (Or.inl h)
          · exact List.mem_append.mpr (Or.inr (List.mem_append.mpr (Or.inl h))))
        exact setV_mono (hInv.closure v hv' hvq' c hstepc)
      · intro he
        rcases setV_eq_true_iff.mp he with heq | he
        · exact List.mem_append.mpr (Or.inr (List.mem_append.mpr
            (Or.inr (List.mem_singleton.mpr heq))))
        · rcases List.mem_append.mp (hInv.end_in_queue he) with h | h
          · exact List.mem_append.mpr (Or.inl h)
          · exact List.mem_append.mpr (Or.inr (List.mem_append.mpr (Or.inl h)))
    · rw [List.length_append A (B ++ [nb]), List.length_append B [nb],
        List.length_singleton, List.length_append A B]
      have := unvisCount_setV m vis nb hnb_inb hunvis
      omega

/-- Folding the direction loop preserves the invariant with `u` queued,
grows the visited set monotonically, keeps the termination measure, and
visits every non-wall neighbour of `u` in the processed directions. -/
theorem expand_fold (m : Map) (start endp u : Point) (L : Nat) (A : List Point) :
    ∀ (ds : List (Int × Int)), (∀ d ∈ ds, d ∈ directions) →
    ∀ (B : List Point) (vis : Point → Bool) (par : Point → Option Point),
    Inv m start endp L (u :: A) B vis par →
    ∃ B' vis' par',
      ds.foldl (expand m u) (vis, par, A ++ B) = (vis', par', A ++ B') ∧
      Inv m start endp L (u :: A) B' vis' par' ∧
      (∀ q, vis q = true → vis' q = true) ∧
      (A ++ B').length + unvisCount m vis' = (A ++ B).length + unvisCount m vis ∧
      ∀ d ∈ ds, m.get (normP m ((u.1 : Int) + d.1) ((u.2 : Int) + d.2)).1
          (normP m ((u.1 : Int) + d.1) ((u.2 : Int) + d.2)).2 ≠ '#' →
        vis' (normP m ((u.1 : Int) + d.1) ((u.2 : Int) + d.2)) = true
  | [], _, B, vis, par, hInv =>
    ⟨B, vis, par, rfl, hInv, fun _ h => h, rfl, fun d hd => absurd hd (List.not_mem_nil d)⟩
  | d :: ds, hds, B, vis, par, hInv => by
    obtain ⟨B₁, vis₁, par₁, heq₁, hInv₁, hmono₁, hcount₁, hnbvis₁⟩ :=
      expand_preserve m start endp u L A d (hds d (List.mem_cons_self d ds)) B vis par hInv
    obtain ⟨B₂, vis₂, par₂, heq₂, hInv₂, hmono₂, hcount₂, hnbvis₂⟩ :=
      expand_fold m start endp u L A ds (fun d' hd' => hds d' (List.mem_cons_of_mem d hd'))
        B₁ vis₁ par₁ hInv₁
    refine ⟨B₂, vis₂, par₂, ?_, hInv₂, fun q h => hmono₂ q (hmono₁ q h), by omega, ?_⟩
    · rw [List.foldl_cons, heq₁, heq₂]
    · intro d' hd' hwall
      rcases List.mem_cons.mp hd' with rfl | hd'
      · exact hmono₂ _ (hnbvis₁ hwall)
      · exact hnbvis₂ d' hd' hwall

/-- Once every neighbour of the dequeued cell `u` is visited, `u` can leave
the queue. -/
theorem inv_dequeue (m : Map) (start endp u : Point) (L : Nat) (A B : List Point)
    (vis : Point → Bool) (par : Point → Option Point)
    (hInv : Inv m start endp L (u :: A) B vis par) (hu_ne : u ≠ endp)
    (hclosed : ∀ d ∈ directions,
      m.get (normP m ((u.1 : Int) + d.1) ((u.2 : Int) + d.2)).1
          (normP m ((u.1 : Int) + d.1) ((u.2 : Int) + d.2)).2 ≠ '#' →
        vis (normP m ((u.1 : Int) + d.1) ((u.2 : Int) + d.2)) = true) :
    Inv m start endp L A B vis par := by
  refine ⟨hInv.hw, hInv.hh, hInv.start_inb, hInv.vis_start, ?_, ?_,
    hInv.vis_inb, hInv.vis_reach, hInv.par_ok, ?_, hInv.lvl_B, hInv.complete_le, ?_, ?_⟩
  · intro p hp
    exact hInv.queue_vis p (List.mem_cons_of_mem u hp)
  · exact List.Nodup.of_cons hInv.queue_nodup
  · intro a ha
    exact hInv.lvl_A a (List.mem_cons_of_mem u ha)
  · intro v hv hvq c hstepc
    by_cases hvu : v = u
    · subst hvu
      obtain ⟨⟨d, hd, hc⟩, hwall⟩ := hstepc
      rw [hc]
      exact hclosed d hd (hc ▸ hwall)
    · have hvq' : v ∉ (u :: A) ++ B := by
        intro hmem
        rcases List.mem_cons.mp hmem with h | h
        · exact hvu h
        · exact hvq h
      exact hInv.closure v hv hvq' c hstepc
  · intro he
    rcases List.mem_cons.mp (hInv.end_in_queue he) with h | h
    · exact absurd h.symm (fun hh => hu_ne hh)
    · exact h

/-- When the level-`L` part of the queue is exhausted, everything moves up
one level. -/
theorem inv_relevel (m : Map) (start endp : Point) (L : Nat) (B : List Point)
    (vis : Point → Bool) (par : Point → Option Point)
    (hInv : Inv m start endp L [] B vis par) :
    Inv m start endp (L + 1) B [] vis par := by
  refine ⟨hInv.hw, hInv.hh, hInv.start_inb, hInv.vis_start, ?_, ?_,
    hInv.vis_inb, hInv.vis_reach, hInv.par_ok, hInv.lvl_B, ?_, ?_, ?_, ?_⟩
  · intro p hp
    exact hInv.queue_vis p (by simpa using hp)
  · simpa using hInv.queue_nodup
  · intro b hb
    exact absurd hb (List.not_mem_nil b)
  · intro c k hk hkle
    rcases Nat.lt_or_ge k (L + 1) with hlt | hge
    · exact hInv.complete_le c k hk (by omega)
    · have hkeq : k = L + 1 := by omega
      subst hkeq
      obtain ⟨p, hstep, hdp⟩ := isDist_layer hk
      have hvp : vis p = true := hInv.complete_le p L hdp (Nat.le_refl L)
      have hpnot : p ∉ ([] : List Point) ++ B := by
        intro hmem
        have hmem' : p ∈ B := by simpa using hmem
        have := isDist_unique hdp (hInv.lvl_B p hmem')
        omega
      exact hInv.closure p hvp hpnot c hstep
  · intro v hv hvq c hstepc
    refine hInv.closure v hv ?_ c hstepc
    intro hmem
    exact hvq (by simpa using hmem)
  · intro he
    simpa using hInv.end_in_queue he

/-- With an empty queue, every reachable cell has been visited. -/
theorem all_visited_of_empty (m : Map) (start endp : Point) (L : Nat)
    (vis : Point → Bool) (par : Point → Option Point)
    (hInv : Inv m start endp L [] [] vis par) :
    ∀ (k : Nat) (c : Point), IsDist m start c k → vis c = true := by
  intro k
  induction k using Nat.strong_induction_on with
  | _ k ih =>
    intro c hk
    cases k with
    | zero =>
      rw [reachN_zero.mp hk.1]
      exact hInv.vis_start
    | succ k' =>
      obtain ⟨p, hstep, hdp⟩ := isDist_layer hk
      have hvp : vis p = true := ih k' (Nat.lt_succ_self k') p hdp
      exact hInv.closure p hvp (List.not_mem_nil p) c hstep

/-- Computation rule: an empty frontier reports no path. -/
theorem bfsAux_nil (m : Map) (start endp : Point) :
    ∀ (fuel : Nat) (vis : Point → Bool) (par : Point → Option Point),
      bfsAux m start endp fuel [] vis par = some none
  | 0, _, _ => rfl
  | _ + 1, _, _ => rfl

/-- Computation rule: dequeuing the end triggers reconstruction. -/
theorem bfsAux_found (m : Map) (start endp : Point) :
    ∀ (fuel : Nat) (rest : List Point) (vis : Point → Bool) (par : Point → Option Point),
      bfsAux m start endp fuel (endp :: rest) vis par =
        (reconstruct par start (m.width * m.height) endp []).map some
  | 0, rest, vis, par => by
    show (if endp = endp
      then (reconstruct par start (m.width * m.height) endp []).map some else _) = _
    rw [if_pos rfl]
  | fuel + 1, rest, vis, par => by
    show (if endp = endp
      then (reconstruct par start (m.width * m.height) endp []).map some else _) = _
    rw [if_pos rfl]

/-- Spec of the frontier loop on an empty queue: it reports no path, and
rightly so — the end is unreachable. -/
theorem bfsAux_empty_spec (m : Map) (start endp : Point) (L fuel : Nat)
    (vis : Point → Bool) (par : Point → Option Point)
    (hInv : Inv m start endp L [] [] vis par) :
    (∀ r, bfsAux m start endp fuel [] vis par = some r →
      (∀ p, r = some p → ∃ n, IsDist m start endp n ∧ p.length = n ∧
        ChainL m start p endp ∧ ∀ q ∈ p, q ≠ start) ∧
      (r = none → ¬ Reach m start endp)) ∧
    bfsAux m start endp fuel [] vis par ≠ none := by
  rw [bfsAux_nil m start endp fuel vis par]
  constructor
  · intro r hr
    injection hr with hr
    subst hr
    constructor
    · intro p hp
      exact Option.noConfusion hp
    · intro _ hre
      obtain ⟨k, hk⟩ := exists_isDist m start endp hre
      have hv := all_visited_of_empty m start endp L vis par hInv k endp hk
      exact absurd (hInv.end_in_queue hv) (List.not_mem_nil endp)
  · exact Option.noConfusion

/-- Spec of the frontier loop when the end is dequeued: reconstruction
returns a start-free chain whose length is the exact distance. -/
theorem bfsAux_found_spec (m : Map) (start endp : Point) (L fuel : Nat)
    (A B rest : List Point) (vis : Point → Bool) (par : Point → Option Point)
    (hInv : Inv m start endp L A B vis par) (hq : A ++ B = endp :: rest) :
    (∀ r, bfsAux m start endp fuel (endp :: rest) vis par = some r →
      (∀ p, r = some p → ∃ n, IsDist m start endp n ∧ p.length = n ∧
        ChainL m start p endp ∧ ∀ q ∈ p, q ≠ start) ∧
      (r = none → ¬ Reach m start endp)) ∧
    bfsAux m start endp fuel (endp :: rest) vis par ≠ none := by
  have hvis : vis endp = true := hInv.queue_vis endp (hq ▸ List.mem_cons_self endp rest)
  have hdist : ∃ n, IsDist m start endp n := by
    cases A with
    | nil =>
      refine ⟨L + 1, hInv.lvl_B endp ?_⟩
      have : B = endp :: rest := hq
      rw [this]
      exact List.mem_cons_self endp rest
    | cons a A₂ =>
      injection hq with h1 _
      exact ⟨L, h1 ▸ hInv.lvl_A a (List.mem_cons_self a A₂)⟩
  obtain ⟨n, hdist⟩ := hdist
  have hn_lt : n < m.width * m.height :=
    isDist_lt_card hInv.hw hInv.hh hInv.start_inb hdist
  obtain ⟨l, hrec, hlen, hchain, hmem⟩ := reconstruct_spec m start vis par hInv.par_ok
    n endp hvis hdist (m.width * m.height) (by omega) []
  rw [List.reverse_nil, List.append_nil] at hrec
  rw [bfsAux_found m start endp fuel rest vis par, hrec]
  constructor
  · intro r hr
    injection hr with hr
    subst hr
    constructor
    · intro p hp
      injection hp with hp
      subst hp
      exact ⟨n, hdist, hlen, hchain, hmem⟩
    · intro hp
      exact Option.noConfusion hp
  · exact Option.noConfusion

/-- One non-terminal iteration of the frontier loop. -/
theorem bfsAux_cons_step (m : Map) (start endp : Point) (f : Nat) (u : Point)
    (rest : List Point) (vis : Point → Bool) (par : Point → Option Point)
    (hu : u ≠ endp) :
    bfsAux m start endp (f + 1) (u :: rest) vis par =
      bfsAux m start endp f (directions.foldl (expand m u) (vis, par, rest)).2.2
        (directions.foldl (expand m u) (vis, par, rest)).1
        (directions.foldl (expand m u) (vis, par, rest)).2.1 := by
  show (if u = endp then (reconstruct par start (m.width * m.height) endp []).map some
    else bfsAux m start endp f (directions.foldl (expand m u) (vis, par, rest)).2.2
      (directions.foldl (expand m u) (vis, par, rest)).1
      (directions.foldl (expand m u) (vis, par, rest)).2.1) = _
  rw [if_neg hu]

/-- Main specification of the frontier loop: under the invariant and with
fuel at least the termination measure, the loop never runs out of fuel, a
found path is a start-free chain whose length is the exact distance to the
end, and a no-path report means the end is unreachable. -/
theorem bfsAux_spec (m : Map) (start endp : Point) :
    ∀ (fuel L : Nat) (A B : List Point) (vis : Point → Bool) (par : Point → Option Point),
    Inv m start endp L A B vis par →
    (A ++ B).length + unvisCount m vis ≤ fuel →
    (∀ r, bfsAux m start endp fuel (A ++ B) vis par = some r →
      (∀ p, r = some p → ∃ n, IsDist m start endp n ∧ p.length = n ∧
        ChainL m start p endp ∧ ∀ q ∈ p, q ≠ start) ∧
      (r = none → ¬ Reach m start endp)) ∧
    bfsAux m start endp fuel (A ++ B) vis par ≠ none := by
  intro fuel
  induction fuel with
  | zero =>
    intro L A B vis par hInv hbound
    cases hq : A ++ B with
    | cons u rest =>
      exfalso
      rw [hq] at hbound
      simp at hbound
    | nil =>
      obtain ⟨hA, hB⟩ := List.append_eq_nil.mp hq
      subst hA
      subst hB
      exact bfsAux_empty_spec m start endp L 0 vis par hInv
  | succ f ih =>
    intro L A B vis par hInv hbound
    cases hq : A ++ B with
    | nil =>
      obtain ⟨hA, hB⟩ := List.append_eq_nil.mp hq
      subst hA
      subst hB
      exact bfsAux_empty_spec m start endp L (f + 1) vis par hInv
    | cons u rest =>
      by_cases hu : u = endp
      · subst hu
        exact bfsAux_found_spec m start u L (f + 1) A B rest vis par hInv hq
      · -- normalise so that the dequeued cell heads the level-L block
        have hnorm : ∃ L₂ A₂ B₂, Inv m start endp L₂ (u :: A₂) B₂ vis par ∧
            rest = A₂ ++ B₂ := by
          cases A with
          | nil =>
            have hB : B = u :: rest := hq
            subst hB
            exact ⟨L + 1, rest, [],
              inv_relevel m start endp L (u :: rest) vis par hInv,
              (List.append_nil rest).symm⟩
          | cons a A₂ =>
            injection hq with h1 h2
            subst h1
            exact ⟨L, A₂, B, hInv, h2.symm⟩
        obtain ⟨L₂, A₂, B₂, hInv₂, hrest⟩ := hnorm
        obtain ⟨B', vis', par', hfold, hInv', hmono, hcount, hdirs⟩ :=
          expand_fold m start endp u L₂ A₂ directions (fun _ hd => hd) B₂ vis par hInv₂
        have hInv'' : Inv m start endp L₂ A₂ B' vis' par' :=
          inv_dequeue m start endp u L₂ A₂ B' vis' par' hInv' hu hdirs
        have hstep := bfsAux_cons_step m start endp f u rest vis par hu
        rw [hrest] at hstep
        rw [hrest, hstep, hfold]
        have hbound' : (A₂ ++ B').length + unvisCount m vis' ≤ f := by
          rw [hq, hrest] at hbound
          simp only [List.length_cons] at hbound
          omega
        exact ih L₂ A₂ B' vis' par' hInv'' hbound'

/-- The invariant holds at the start of the search. -/
theorem init_inv (m : Map) (start endp : Point) (hw : 0 < m.width) (hh : 0 < m.height)
    (hs : InB m start) :
    Inv m start endp 0 [start] [] (setV (fun _ => false) start) (fun _ => none) := by
  refine ⟨hw, hh, hs, setV_self _ start, ?_, ?_, ?_, ?_, ?_, ?_, ?_, ?_, ?_, ?_⟩
  · intro p hp
    have hps : p = start := by simpa using hp
    rw [hps]
    exact setV_self _ start
  · simp
  · intro p hp
    rcases setV_eq_true_iff.mp hp with rfl | hp
    · exact hs
    · exact Bool.noConfusion hp
  · intro p hp
    rcases setV_eq_true_iff.mp hp with rfl | hp
    · exact ⟨0, rfl⟩
    · exact Bool.noConfusion hp
  · intro c hc hcs
    rcases setV_eq_true_iff.mp hc with rfl | hc
    · exact absurd rfl hcs
    · exact Bool.noConfusion hc
  · intro a ha
    have has : a = start := by simpa using ha
    rw [has]
    exact isDist_start m start
  · intro b hb
    exact absurd hb (List.not_mem_nil b)
  · intro c k hk hkle
    have hk0 : k = 0 := by omega
    subst hk0
    rw [reachN_zero.mp hk.1]
    exact setV_self _ start
  · intro v hv hvq c hstepc
    exfalso
    rcases setV_eq_true_iff.mp hv with rfl | hv
    · exact hvq (by simp)
    · exact Bool.noConfusion hv
  · intro he
    rcases setV_eq_true_iff.mp he with heq | he
    · simp [heq]
    · exact Bool.noConfusion he

/-- Combined run-level specification of `bfs` under in-bounds start. -/
theorem bfs_run_spec (m : Map) (start endp : Point)
    (hw : 0 < m.width) (hh : 0 < m.height)
    (hs : start.1 < m.width ∧ start.2 < m.height) :
    (∀ p, m.bfs start endp = some p → ∃ n, IsDist m start endp n ∧ p.length = n ∧
      ChainL m start p endp ∧ ∀ q ∈ p, q ≠ start) ∧
    (m.bfs start endp = none ↔ ¬ Reach m start endp) := by
  have hInv := init_inv m start endp hw hh hs
  have hcount : unvisCount m (setV (fun _ => false) start) + 1 = m.width * m.height := by
    rw [unvisCount_setV m (fun _ => false) start hs rfl, unvisCount_false]
  have hspec := bfsAux_spec m start endp (m.width * m.height) 0 [start] []
    (setV (fun _ => false) start) (fun _ => none) hInv
    (by simp only [List.append_nil, List.length_singleton]; omega)
  simp only [List.append_nil] at hspec
  cases hr : bfsAux m start endp (m.width * m.height) [start]
      (setV (fun _ => false) start) (fun _ => none) with
  | none => exact absurd hr hspec.2
  | some r =>
    have hbfs : m.bfs start endp = r := by
      unfold Map.bfs
      rw [hr]
      rfl
    obtain ⟨hfound, hnone⟩ := hspec.1 r hr
    constructor
    · intro p hp
      rw [hbfs] at hp
      exact hfound p hp
    · rw [hbfs]
      constructor
      · exact hnone
      · intro hnr
        cases r with
        | none => rfl
        | some p =>
          exfalso
          obtain ⟨n, _, _, hchain, _⟩ := hfound p rfl
          exact hnr ⟨p.length, chainL_reachN hchain⟩

/-- Claim C1 (amended: the start cell must not be a wall; the code enqueues
the start unconditionally, so from a wall start it can still find a path
even though the start is not a vertex of the spec's graph): when the start
cell is not a wall, a returned path realizes a walk of its exact length in
the graph of non-wall cells and no shorter walk exists, and no path is
returned exactly when the end is unreachable in that graph. -/
theorem bfs_shortest_path (m : Map) (s e : Point) (_hwf : m.WF)
    (hs : s.1 < m.width ∧ s.2 < m.height) (he : e.1 < m.width ∧ e.2 < m.height)
    (hsw : m.get s.1 s.2 ≠ '#') :
    (∀ p, m.bfs s e = some p →
      SpecReachN m s p.length e ∧ ∀ k, SpecReachN m s k e → p.length ≤ k) ∧
    (m.bfs s e = none ↔ ¬ ∃ n, SpecReachN m s n e) := by
  obtain ⟨hfound, hnone⟩ := bfs_run_spec m s e (by omega) (by omega) hs
  constructor
  · intro p hp
    obtain ⟨n, hdist, hlen, hchain, _⟩ := hfound p hp
    have hreach : ReachN m s p.length e := chainL_reachN hchain
    refine ⟨(specReachN_iff hsw p.length e).mpr hreach, ?_⟩
    intro k hk
    have := isDist_le hdist ((specReachN_iff hsw k e).mp hk)
    omega
  · rw [hnone]
    constructor
    · rintro hnr ⟨n, hn⟩
      exact hnr ⟨n, (specReachN_iff hsw n e).mp hn⟩
    · rintro hns ⟨n, hn⟩
      exact hns ⟨n, (specReachN_iff hsw n e).mpr hn⟩

/-- Claim C1 witness: the amended statement applied to the test map between
its entry (4, 1) and exit (3, 2). -/
theorem bfs_shortest_path_witness :
    (∀ p, testMap.bfs (4, 1) (3, 2) = some p →
      SpecReachN testMap (4, 1) p.length (3, 2) ∧
      ∀ k, SpecReachN testMap (4, 1) k (3, 2) → p.length ≤ k) ∧
    (testMap.bfs (4, 1) (3, 2) = none ↔ ¬ ∃ n, SpecReachN testMap (4, 1) n (3, 2)) :=
  bfs_shortest_path testMap (4, 1) (3, 2) (by decide) (by decide) (by decide) (by decide)

/-- A 1 x 2 grid whose start cell is a wall. -/
def wallStartMap : Map := { grid := [['#', 'x']], width := 2, height := 1 }

/-- Claim C1 counterexample: starting on a wall cell — allowed by the
claim's quantification over all in-bounds pairs — `bfs` returns a path even
though the end is unreachable in the graph whose vertices are the non-wall
cells, because the wall start is not a vertex there at all. -/
theorem bfs_wall_start_cex :
    wallStartMap.bfs (0, 0) (1, 0) = some [(1, 0)] ∧
    ¬ ∃ n, SpecReachN wallStartMap (0, 0) n (1, 0) := by
  constructor
  · decide
  · rintro ⟨n, hn⟩
    have honly : ∀ (k : Nat) (c : Point), SpecReachN wallStartMap (0, 0) k c → c = (0, 0) := by
      intro k
      induction k with
      | zero => intro c hc; exact hc
      | succ k ih =>
        rintro c ⟨p, hp, hstep⟩
        have hps := ih p hp
        rw [hps] at hstep
        exact absurd hstep.1 (by decide)
    exact absurd (honly n (1, 0) hn) (by decide)

/-- Claim C3: a returned path excludes the start, its consecutive members
(the start being the implicit predecessor of the first) are one normalized
cardinal step apart, it ends at the end cell when non-empty, and it is empty
when start and end coincide. -/
theorem bfs_path_shape (m : Map) (s e : Point) (_hwf : m.WF)
    (hs : s.1 < m.width ∧ s.2 < m.height) (he : e.1 < m.width ∧ e.2 < m.height) :
    ∀ p, m.bfs s e = some p →
      s ∉ p ∧ adjSeq m s p ∧ (p ≠ [] → p.getLast? = some e) ∧ (s = e → p = []) := by
  obtain ⟨hfound, _⟩ := bfs_run_spec m s e (by omega) (by omega) hs
  intro p hp
  obtain ⟨n, hdist, hlen, hchain, hnstart⟩ := hfound p hp
  obtain ⟨hseq, hlast, _⟩ := chainL_props hchain
  refine ⟨fun hmem => hnstart s hmem rfl, hseq, ?_, ?_⟩
  · intro hne
    rw [List.getLast?_eq_getLast p hne] at hlast ⊢
    rw [Option.getD_some] at hlast
    rw [hlast]
  · intro hse
    have h0 : IsDist m s e 0 := hse ▸ isDist_start m s
    have hn0 : n = 0 := isDist_unique hdist h0
    rw [hn0] at hlen
    exact List.length_eq_zero.mp hlen

/-- Claim C3 witness: the statement applied to the test map between its
entry (4, 1) and exit (3, 2). -/
theorem bfs_path_shape_witness :
    (4, 1) ∉ testPath ∧ adjSeq testMap (4, 1) testPath ∧
    (testPath ≠ [] → testPath.getLast? = some (3, 2)) ∧
    ((4, 1) = (3, 2) → testPath = []) :=
  bfs_path_shape testMap (4, 1) (3, 2) (by decide) (by decide) (by decide)
    testPath (by decide)

/-- Claim C8: with positive dimensions and in-bounds endpoints the search
terminates within width * height dequeues — the embedding's fuel, one unit
per dequeue, is never exhausted — and `bfs` returns that run's result. -/
theorem bfs_terminates (m : Map) (start endp : Point) (_hwf : m.WF)
    (hw : 1 ≤ m.width) (hh : 1 ≤ m.height)
    (hs : start.1 < m.width ∧ start.2 < m.height)
    (_he : endp.1 < m.width ∧ endp.2 < m.height) :
    ∃ r, bfsAux m start endp (m.width * m.height) [start]
      (setV (fun _ => false) start) (fun _ => none) = some r ∧
      m.bfs start endp = r := by
  have hInv := init_inv m start endp hw hh hs
  have hcount : unvisCount m (setV (fun _ => false) start) + 1 = m.width * m.height := by
    rw [unvisCount_setV m (fun _ => false) start hs rfl, unvisCount_false]
  have hspec := bfsAux_spec m start endp (m.width * m.height) 0 [start] []
    (setV (fun _ => false) start) (fun _ => none) hInv
    (by simp only [List.append_nil, List.length_singleton]; omega)
  simp only [List.append_nil] at hspec
  cases hr : bfsAux m start endp (m.width * m.height) [start]
      (setV (fun _ => false) start) (fun _ => none) with
  | none => exact absurd hr hspec.2
  | some r =>
    refine ⟨r, rfl, ?_⟩
    unfold Map.bfs
    rw [hr]
    rfl

/-- Claim C8 witness: the statement applied to the test map between its
entry (4, 1) and exit (3, 2). -/
theorem bfs_terminates_witness :
    ∃ r, bfsAux testMap (4, 1) (3, 2) (testMap.width * testMap.height) [(4, 1)]
      (setV (fun _ => false) (4, 1)) (fun _ => none) = some r ∧
      testMap.bfs (4, 1) (3, 2) = r :=
  bfs_terminates testMap (4, 1) (3, 2) (by decide) (by decide) (by decide)
    (by decide) (by decide)

/-- Claim C9: every cell of a returned path is not a wall, and consequently
overlaying the path never overwrites a wall cell. -/
theorem bfs_path_no_walls (m : Map) (s e : Point) (_hwf : m.WF)
    (hs : s.1 < m.width ∧ s.2 < m.height) (he : e.1 < m.width ∧ e.2 < m.height) :
    ∀ p, m.bfs s e = some p →
      (∀ c ∈ p, m.get c.1 c.2 ≠ '#') ∧
      (∀ x y, m.get x y = '#' → (m.mark_path p).get x y = '#') := by
  obtain ⟨hfound, _⟩ := bfs_run_spec m s e (by omega) (by omega) hs
  intro p hp
  obtain ⟨n, _, _, hchain, _⟩ := hfound p hp
  obtain ⟨_, _, hwalls⟩ := chainL_props hchain
  refine ⟨hwalls, ?_⟩
  intro x y hxy
  rw [mark_path_frame_get p m x y (fun hmem => hwalls (x, y) hmem hxy)]
  exact hxy

/-- Claim C9 witness: the statement applied to the test map between its
entry (4, 1) and exit (3, 2). -/
theorem bfs_path_no_walls_witness :
    (∀ c ∈ testPath, testMap.get c.1 c.2 ≠ '#') ∧
    (∀ x y, testMap.get x y = '#' → (testMap.mark_path testPath).get x y = '#') :=
  bfs_path_no_walls testMap (4, 1) (3, 2) (by decide) (by decide) (by decide)
    testPath (by decide)

end Maze
